import Mathlib

set_option maxRecDepth 100000

/-!
# Verification of the amimono-haze CRDT store core

This file gives a shallow embedding, in Lean 4, of the core data model and
operations of the amimono-haze distributed CRDT key-value store:

* the SHA-256 hash function used for ring placement (`src/crdt/ring.rs`,
  `src/crdt/router.rs` hash keys by SHA-256 and compare hex strings),
* the consistent hash ring (`src/crdt/ring.rs`): sorted `(hash, vn)` data,
  cursor construction by binary search, ranges with wrap-around `contains`,
* the router's action selection and TTL handling (`src/crdt/router.rs`),
* the storage engine's merge-on-write `put_here`/`get_here`, `updating`, and
  the `sync_updater` worker-activation logic (`src/crdt/storage.rs`),
* the built-in CRDT combinators (`src/crdt/crdt.rs`, `src/crdt/mod.rs`),
* the controller's `ClusterConfig::parse` (`src/crdt/controller.rs`).

Machine integers do not overflow in the modelled paths except in SHA-256,
where 32-bit wrap-around is written as explicit `% 2^32`.  Fallible or
panicking code is modelled with `Option`/`Except`/`RpcOutcome`.
-/

/-! ## SHA-256

A byte-level executable embedding of SHA-256 (FIPS 180-4), as used by the
`sha2` crate calls in `ring.rs` and `router.rs`.  Bytes and 32-bit words are
`Nat` with explicit `% 2^32` where the algorithm wraps. -/

namespace Sha256

/-- Right-rotation of a 32-bit word held in a `Nat`. -/
def rotr (k n : Nat) : Nat := ((n >>> k) ||| (n <<< (32 - k))) % 4294967296

/-- The 64 SHA-256 round constants (FIPS 180-4, written in decimal). -/
def K : List Nat :=
  [1116352408, 1899447441, 3049323471, 3921009573, 961987163, 1508970993,
   2453635748, 2870763221, 3624381080, 310598401, 607225278, 1426881987,
   1925078388, 2162078206, 2614888103, 3248222580, 3835390401, 4022224774,
   264347078, 604807628, 770255983, 1249150122, 1555081692, 1996064986,
   2554220882, 2821834349, 2952996808, 3210313671, 3336571891, 3584528711,
   113926993, 338241895, 666307205, 773529912, 1294757372, 1396182291,
   1695183700, 1986661051, 2177026350, 2456956037, 2730485921, 2820302411,
   3259730800, 3345764771, 3516065817, 3600352804, 4094571909, 275423344,
   430227734, 506948616, 659060556, 883997877, 958139571, 1322822218,
   1537002063, 1747873779, 1955562222, 2024104815, 2227730452, 2361852424,
   2428436474, 2756734187, 3204031479, 3329325298]

/-- The SHA-256 initial hash value (FIPS 180-4, written in decimal). -/
def H0 : List Nat :=
  [1779033703, 3144134277, 1013904242, 2773480762,
   1359893119, 2600822924, 528734635, 1541459225]

/-- `k` big-endian bytes of `n` (most significant first). -/
def beBytes : Nat → Nat → List Nat
  | 0, _ => []
  | k + 1, n => beBytes k (n / 256) ++ [n % 256]

/-- SHA-256 message padding: append `0x80`, zeros, and the 64-bit big-endian
bit length, reaching a multiple of 64 bytes. -/
def pad (msg : List Nat) : List Nat :=
  let len := msg.length
  let zeros := (64 - ((len + 9) % 64)) % 64
  msg ++ [0x80] ++ List.replicate zeros 0 ++ beBytes 8 (len * 8)

/-- Group a list of bytes into big-endian 32-bit words. -/
def toWords : List Nat → List Nat
  | a :: b :: c :: d :: rest => (((a * 256 + b) * 256 + c) * 256 + d) :: toWords rest
  | _ => []

/-- Split a byte list into 64-byte chunks (structural recursion on a fuel
bound so that the kernel can evaluate it; the fuel never runs out because
every step consumes at least one byte). -/
def chunksGo : Nat → List Nat → List (List Nat)
  | 0, _ => []
  | _, [] => []
  | fuel + 1, l => l.take 64 :: chunksGo fuel (l.drop 64)

/-- Split a byte list into 64-byte chunks. -/
def chunks (l : List Nat) : List (List Nat) := chunksGo l.length l

/-- Extend a 16-word message schedule by `k` further words. -/
def extendW (w : List Nat) : Nat → List Nat
  | 0 => w
  | k + 1 =>
    let w := extendW w k
    let i := w.length
    let x15 := w.getD (i - 15) 0
    let x2 := w.getD (i - 2) 0
    let s0 := rotr 7 x15 ^^^ rotr 18 x15 ^^^ (x15 >>> 3)
    let s1 := rotr 17 x2 ^^^ rotr 19 x2 ^^^ (x2 >>> 10)
    w ++ [(w.getD (i - 16) 0 + s0 + w.getD (i - 7) 0 + s1) % 4294967296]

/-- The eight 32-bit working variables of the compression function. -/
structure Hs where
  a : Nat
  b : Nat
  c : Nat
  d : Nat
  e : Nat
  f : Nat
  g : Nat
  h : Nat

/-- One round of the SHA-256 compression function. -/
def compressStep (w k : Nat) (s : Hs) : Hs :=
  let S1 := rotr 6 s.e ^^^ rotr 11 s.e ^^^ rotr 25 s.e
  let ch := (s.e &&& s.f) ^^^ ((s.e ^^^ 4294967295) &&& s.g)
  let temp1 := (s.h + S1 + ch + k + w) % 4294967296
  let S0 := rotr 2 s.a ^^^ rotr 13 s.a ^^^ rotr 22 s.a
  let maj := (s.a &&& s.b) ^^^ (s.a &&& s.c) ^^^ (s.b &&& s.c)
  let temp2 := (S0 + maj) % 4294967296
  ⟨(temp1 + temp2) % 4294967296, s.a, s.b, s.c, (s.d + temp1) % 4294967296, s.e, s.f, s.g⟩

/-- Process one 64-byte chunk, updating the eight-word hash state. -/
def processChunk (hs : List Nat) (chunk : List Nat) : List Nat :=
  let w := extendW (toWords chunk) 48
  let s0 : Hs := ⟨hs.getD 0 0, hs.getD 1 0, hs.getD 2 0, hs.getD 3 0,
                  hs.getD 4 0, hs.getD 5 0, hs.getD 6 0, hs.getD 7 0⟩
  let s := (List.range 64).foldl (fun s i => compressStep (w.getD i 0) (K.getD i 0) s) s0
  [(hs.getD 0 0 + s.a) % 4294967296, (hs.getD 1 0 + s.b) % 4294967296,
   (hs.getD 2 0 + s.c) % 4294967296, (hs.getD 3 0 + s.d) % 4294967296,
   (hs.getD 4 0 + s.e) % 4294967296, (hs.getD 5 0 + s.f) % 4294967296,
   (hs.getD 6 0 + s.g) % 4294967296, (hs.getD 7 0 + s.h) % 4294967296]

/-- SHA-256 of a byte list, as eight 32-bit words. -/
def sha256 (msg : List Nat) : List Nat :=
  (chunks (pad msg)).foldl processChunk H0

/-- Lower-case hex digit for a nibble. -/
def hexDigit (n : Nat) : Char := if n < 10 then Char.ofNat (48 + n) else Char.ofNat (87 + n)

/-- Two lower-case hex digits of a byte. -/
def hexByte (n : Nat) : List Char := [hexDigit (n / 16), hexDigit (n % 16)]

/-- Eight lower-case hex digits of a 32-bit word, most significant first. -/
def hexWord (n : Nat) : List Char :=
  hexByte (n / 16777216 % 256) ++ hexByte (n / 65536 % 256) ++
  hexByte (n / 256 % 256) ++ hexByte (n % 256)

/-- SHA-256 of a byte list as a 64-character lower-case hex string — the form
in which `ring.rs` compares hashes (`RingKey::as_sha256_string`). -/
def sha256hex (msg : List Nat) : String :=
  String.mk ((sha256 msg).map hexWord).flatten

/-- UTF-8 encoding of one character, as byte values. -/
def charUtf8 (c : Char) : List Nat :=
  let n := c.toNat
  if n < 128 then [n]
  else if n < 2048 then [192 ||| (n >>> 6), 128 ||| (n &&& 63)]
  else if n < 65536 then
    [224 ||| (n >>> 12), 128 ||| ((n >>> 6) &&& 63), 128 ||| (n &&& 63)]
  else
    [240 ||| (n >>> 18), 128 ||| ((n >>> 12) &&& 63),
     128 ||| ((n >>> 6) &&& 63), 128 ||| (n &&& 63)]

/-- The UTF-8 bytes of a string — what Rust's `Sha256::digest` consumes when
handed a `String`. -/
def strBytes (s : String) : List Nat := (s.data.map charUtf8).flatten

/-- SHA-256 hex digest of a string's UTF-8 bytes. -/
def ofString (s : String) : String := sha256hex (strBytes s)

/-- SHA-256 of a byte list as the 256-bit numeric value of the digest.
The source compares digests by their lower-case hex strings; for the
fixed-width, lower-case hex form of SHA-256 that lexicographic order (and
equality) coincides with the numeric order of the digest, so the ring model
below carries this numeric form. -/
def sha256Nat (msg : List Nat) : Nat :=
  (sha256 msg).foldl (fun acc w => acc * 4294967296 + w) 0

/-- Numeric SHA-256 digest of a string's UTF-8 bytes. -/
def natOfString (s : String) : Nat := sha256Nat (strBytes s)

set_option maxRecDepth 10000 in
/-- FIPS 180-4 test vector: SHA-256 of the empty message. -/
theorem sha256_empty :
    sha256hex [] = "e3b0c44298fc1c149afbf4c8996fb92427ae41e4649b934ca495991b7852b855" := by
  decide

set_option maxRecDepth 10000 in
/-- FIPS 180-4 test vector: SHA-256 of ASCII "abc". -/
theorem sha256_abc :
    ofString "abc" = "ba7816bf8f01cfea414140de5dae2223b00361a396177a9cb410ff61f20015ad" := by
  decide

end Sha256

/-! ## Ring model (`src/crdt/ring.rs`)

Identifiers, ring configurations, and the derived sorted hash ring with
cursor and range queries.  The source stores each digest as its 64-character
lower-case hex string and compares those strings lexicographically; the
embedding stores the equivalent 256-bit numeric value of the digest
(`Sha256.natOfString`), whose `Nat` order and equality coincide with the
source's string order and equality on digests.  Rust `HashMap`s are
modelled as `Finmap` (extensional finite maps, matching `HashMap`'s
order-independent equality).  Operations that panic or index an empty
vector are modelled with `Option`. -/

namespace Haze

/-- `VirtualNodeId` — identity of a virtual slot on the ring (`ring.rs`). -/
structure VirtualNodeId where
  name : String
deriving DecidableEq

/-- `NetworkId` — stable address of a physical node (`ring.rs`). -/
structure NetworkId where
  name : String
deriving DecidableEq

/-- `RingKey::as_sha256_string` for `VirtualNodeId` (SHA-256 of the name),
in the order-equivalent numeric form. -/
def VirtualNodeId.as_sha256 (vn : VirtualNodeId) : Nat :=
  Sha256.natOfString vn.name

/-- `RingUpdateConfig` — the in-progress ring modification (`ring.rs`). -/
inductive RingUpdateConfig where
  | ToAdd (vn : VirtualNodeId) (ni : NetworkId)
  | ToRemove (vn : VirtualNodeId) (ni : NetworkId)
deriving DecidableEq

/-- `RingConfig` — virtual-node-to-network map plus optional update
(`ring.rs`).  The `nodes` `HashMap` is a `Finmap`. -/
structure RingConfig where
  nodes : Finmap (fun _ : VirtualNodeId => NetworkId)
  update : Option RingUpdateConfig
deriving DecidableEq

/-- `RingConfig::network_id` — map lookup of a virtual node's network. -/
def RingConfig.network_id (cf : RingConfig) (vn : VirtualNodeId) : Option NetworkId :=
  cf.nodes.lookup vn

/-- `HashRing` — the derived sorted list of `(hash, virtual node)` pairs. -/
structure HashRing where
  data : List (Nat × VirtualNodeId)

/-- The comparison `Vec::sort` uses on the `(hash, VirtualNodeId)` pairs:
lexicographic, digest first, then the virtual-node name. -/
def ringPairLe (a b : Nat × VirtualNodeId) : Prop :=
  a.1 < b.1 ∨ (a.1 = b.1 ∧ a.2.name ≤ b.2.name)

instance : DecidableRel ringPairLe := fun a b => by
  unfold ringPairLe; infer_instance

/-- `HashRing::from_nodes` — hash every virtual node and sort the pairs.
(`Vec::sort` is a stable sort; with all pairs distinct its result is the
unique sorted permutation, here computed by insertion sort.) -/
def HashRing.from_nodes (nodes : List VirtualNodeId) : HashRing :=
  ⟨List.insertionSort ringPairLe (nodes.map fun n => (n.as_sha256, n))⟩

/-- A hash ring is strictly sorted when its stored hashes strictly increase.
This holds for every ring the program builds, except under a SHA-256
collision between configured virtual-node names — which the source treats
as a fatal configuration error. -/
def HashRing.StrictSorted (ring : HashRing) : Prop :=
  ring.data.Pairwise (fun p q => p.1 < q.1)

/-- A hash ring is coherent when every stored hash is the SHA-256 of its
virtual node — true by construction in `from_nodes`. -/
def HashRing.Coherent (ring : HashRing) : Prop :=
  ∀ p ∈ ring.data, p.1 = p.2.as_sha256

/-- `HashRingCursor::new` — binary search for the key hash in the sorted
data: an exact hash match yields its index (`Ok(i)`), a miss with insertion
point `i` (the number of entries with smaller hash) yields the preceding
slot `(i + n − 1) % n` (`Err(i)`).  On an empty ring the source's index
arithmetic has no value (`(i + n − 1) % n` with `n = 0` panics), so the
embedding returns `none`. -/
def HashRingCursor.new (ring : HashRing) (atHash : Nat) : Option Nat :=
  let n := ring.data.length
  if n = 0 then none
  else
    let i := (ring.data.takeWhile fun x => decide (x.1 < atHash)).length
    match ring.data.get? i with
    | some x => if x.1 = atHash then some i else some ((i + n - 1) % n)
    | none => some ((i + n - 1) % n)

/-- `HashRingCursor::get` — the virtual node at the cursor. -/
def HashRingCursor.get (ring : HashRing) (i : Nat) : Option VirtualNodeId :=
  (ring.data.get? i).map (fun p => p.2)

/-- `HashRingCursor::next` — advance the cursor one slot, wrapping. -/
def HashRingCursor.next (ring : HashRing) (i : Nat) : Nat :=
  (i + 1) % ring.data.length

/-- `HashRingRange` — a range between two virtual nodes, with their hashes. -/
structure HashRingRange where
  a_hash : Nat
  b_hash : Nat
  a : VirtualNodeId
  b : VirtualNodeId
deriving DecidableEq

/-- `HashRingRange::new` — hash both endpoints. -/
def HashRingRange.new (a b : VirtualNodeId) : HashRingRange :=
  ⟨a.as_sha256, b.as_sha256, a, b⟩

/-- `HashRingRange::start`. -/
def HashRingRange.start (r : HashRingRange) : VirtualNodeId := r.a

/-- `HashRingRange::contains` — wrap-around membership test on hashes.
An empty range (equal endpoint hashes) contains nothing. -/
def HashRingRange.contains (r : HashRingRange) (ptHash : Nat) : Bool :=
  if r.a_hash = r.b_hash then false
  else if r.a_hash < r.b_hash then decide (r.a_hash ≤ ptHash) && decide (ptHash < r.b_hash)
  else decide (r.a_hash ≤ ptHash) || decide (ptHash < r.b_hash)

/-- `HashRingRange::trim_start` — restart the range at `vn`.  The source
asserts `contains(vn)`; the embedding returns `none` when the assertion
would fail. -/
def HashRingRange.trim_start (r : HashRingRange) (vn : VirtualNodeId) : Option HashRingRange :=
  if r.contains vn.as_sha256 then
    some ⟨vn.as_sha256, r.b_hash, vn, r.b⟩
  else none

/-- `HashRingCursor::range` — the range from the cursor's node to the next
node's, at a given cursor index. -/
def HashRingCursor.rangeAt (ring : HashRing) (i : Nat) : Option HashRingRange := do
  let a ← HashRingCursor.get ring i
  let b ← HashRingCursor.get ring (HashRingCursor.next ring i)
  pure (HashRingRange.new a b)

/-- `HashRing::range` — the range containing a key hash: position a cursor
with `HashRingCursor::new` and take its range. -/
def HashRing.range (ring : HashRing) (keyHash : Nat) : Option HashRingRange :=
  (HashRingCursor.new ring keyHash).bind (HashRingCursor.rangeAt ring)

instance (ring : HashRing) : Decidable ring.StrictSorted := by
  unfold HashRing.StrictSorted; infer_instance

instance (ring : HashRing) : Decidable ring.Coherent := by
  unfold HashRing.Coherent; infer_instance

end Haze

/-! ## Router (`src/crdt/router.rs`)

The per-node request handler: composite keys, action selection, and the
routing step of `get`/`put` with TTL.  RPC endpoints that can return an
error or panic are modelled with `RpcOutcome`: `ok` is `Ok`, `error` is
`Err(RpcError::Misc(..))`, and `diverge` marks a `todo!()`/panic, which has
no result at all.  I/O and task scheduling stay outside the model: the
routing step is the pure decision the source computes inside `with_ring`
plus the dispatch on it. -/

namespace Haze

/-- The outcome of an endpoint body: `Ok`, `Err(Misc(msg))`, or a panic /
`todo!()` (no result). -/
inductive RpcOutcome (α : Type) where
  | ok (x : α)
  | error (msg : String)
  | diverge
deriving DecidableEq

/-- `CompositeKey` — `(scope, key)` (`router.rs`). -/
structure CompositeKey where
  scope : String
  key : String
deriving DecidableEq

/-- The hashing pre-image `format!("{}\0{}", scope, key)` of a composite
key: scope, a NUL byte, then the key. -/
def CompositeKey.preimage (ck : CompositeKey) : String :=
  ck.scope ++ "\x00" ++ ck.key

/-- `RingKey::as_sha256` for `CompositeKey`: SHA-256 of the pre-image, in
the order-equivalent numeric form. -/
def CompositeKey.as_sha256 (ck : CompositeKey) : Nat :=
  Sha256.natOfString ck.preimage

/-- The router's routing decision (`enum Action` in `router.rs`). -/
inductive Action where
  | Forward (ni : NetworkId)
  | Store
  | StoreAdding (ni : NetworkId)
deriving DecidableEq

/-- `CrdtRouter::action` — pick the action for a key under a configured
ring: find the range containing the key, resolve the network of its
starting virtual node (`Err` when the ring config is corrupt), forward if
that network is not `myself`, otherwise store — downgraded to
`StoreAdding(ni)` when a `ToAdd { vn, ni }` update is in flight and the
range contains `vn`.  A `ToRemove` update reaches a `todo!()`. -/
def CrdtRouter.action (myself : NetworkId) (ck : CompositeKey) (cf : RingConfig)
    (ring : HashRing) : RpcOutcome Action :=
  match ring.range ck.as_sha256 with
  | none => .diverge
  | some range =>
    match cf.network_id range.start with
    | none => .error "ring config corrupted"
    | some ni0 =>
      if ni0 ≠ myself then .ok (.Forward ni0)
      else
        match cf.update with
        | some (.ToAdd vn ni) =>
          if range.contains vn.as_sha256 then .ok (.StoreAdding ni) else .ok .Store
        | some (.ToRemove _ _) => .diverge
        | none => .ok .Store

/-- What a `get` does after its routing decision: forward with a TTL, read
the local store, or (during a `ToAdd` drain) read locally and remotely in
parallel and merge. -/
inductive GetPlan where
  | forward (tgt : NetworkId) (ttl : Nat)
  | readLocal
  | mergeLocalRemote (tgt : NetworkId) (ttl : Nat)
deriving DecidableEq

/-- What a `put` does after its routing decision: forward with a TTL, or
merge-write the local store. -/
inductive PutPlan where
  | forward (tgt : NetworkId) (ttl : Nat)
  | writeLocal
deriving DecidableEq

/-- The routing step of `CrdtRouter::get`: fail on `ttl == 0` before
touching ring or storage; with no ring configured forward to a random peer
(`randomPeer` is the shuffled discovery outcome, `none` when no other peer
exists); otherwise dispatch on `CrdtRouter::action`.  Every forward carries
`ttl - 1`. -/
def CrdtRouter.routeGet (myself : NetworkId) (ringState : Option (RingConfig × HashRing))
    (randomPeer : Option NetworkId) (ttl : Nat) (ck : CompositeKey) : RpcOutcome GetPlan :=
  if ttl = 0 then .error "ttl expired"
  else
    let act : RpcOutcome Action :=
      match ringState with
      | some (cf, ring) => CrdtRouter.action myself ck cf ring
      | none =>
        match randomPeer with
        | some p => .ok (.Forward p)
        | none => .error "no other peers"
    match act with
    | .error e => .error e
    | .diverge => .diverge
    | .ok (.Forward tgt) => .ok (.forward tgt (ttl - 1))
    | .ok .Store => .ok .readLocal
    | .ok (.StoreAdding tgt) => .ok (.mergeLocalRemote tgt (ttl - 1))

/-- The routing step of `CrdtRouter::put`: fail on `ttl == 0` before
touching ring or storage; with no ring configured forward to a random peer;
otherwise dispatch on `CrdtRouter::action` — `Forward(to)` and
`StoreAdding(to)` both forward the put to `to` with `ttl - 1` (a put is
never written locally during a drain), `Store` merge-writes locally. -/
def CrdtRouter.routePut (myself : NetworkId) (ringState : Option (RingConfig × HashRing))
    (randomPeer : Option NetworkId) (ttl : Nat) (ck : CompositeKey) : RpcOutcome PutPlan :=
  if ttl = 0 then .error "ttl expired"
  else
    let act : RpcOutcome Action :=
      match ringState with
      | some (cf, ring) => CrdtRouter.action myself ck cf ring
      | none =>
        match randomPeer with
        | some p => .ok (.Forward p)
        | none => .error "no other peers"
    match act with
    | .error e => .error e
    | .diverge => .diverge
    | .ok (.Forward tgt) => .ok (.forward tgt (ttl - 1))
    | .ok .Store => .ok .writeLocal
    | .ok (.StoreAdding tgt) => .ok (.forward tgt (ttl - 1))

/-- `CrdtRouter::updating` — the endpoint body in the source is
`Ok(rand::random_bool(0.9))`: it returns the outcome of a Bernoulli(0.9)
draw, modelled here by passing the draw's outcome in. -/
def CrdtRouter.updating (randomDraw : Bool) : Bool := randomDraw

end Haze

/-! ## Storage engine (`src/crdt/storage.rs`)

Per-node state relevant to the modelled operations: the persisted
`ring.json`, the in-memory ring config, the active-update slot guarded by
the `updater` mutex, and the list of migration-worker tasks spawned so far.
File contents are byte lists; the per-key store for one key is its optional
file contents.  `merge_in_scope` (`mod.rs`) dispatches through the
process-wide scope registry to a type-erased serde round-trip, so the
byte-level merge is a parameter of the storage operations here. -/

namespace Haze

/-- The state of one node's `StorageInstance` that the modelled operations
read and write.  `spawned` records the `tokio::spawn(run_update ..)` calls
made so far. -/
structure NodeState where
  ringFile : Option RingConfig
  ring : Option RingConfig
  updater : Option RingUpdateConfig
  spawned : List RingUpdateConfig
deriving DecidableEq

/-- `RingStorage::set` — serialize the config to `ring.json`, then swap the
in-memory copy. -/
def RingStorage.set (s : NodeState) (cf : RingConfig) : NodeState :=
  { s with ringFile := some cf, ring := some cf }

/-- `StorageInstance::set_ring_config` — `RingStorage::set` under the
exclusive ring write guard. -/
def StorageInstance.set_ring_config (s : NodeState) (cf : RingConfig) : NodeState :=
  RingStorage.set s cf

/-- `StorageInstance::updating` — whether the active-update slot is
occupied. -/
def StorageInstance.updating (s : NodeState) : Bool := s.updater.isSome

/-- `StorageInstance::sync_updater` — compare the active-update slot with
the in-memory config's update: nothing to do when both are empty; store the
update and spawn the worker task when one newly appears; panic (`none`)
when a running update is canceled or replaced by a different one. -/
def StorageInstance.sync_updater (s : NodeState) : Option NodeState :=
  match s.updater, s.ring.bind (fun cf => cf.update) with
  | none, none => some s
  | none, some b => some { s with updater := some b, spawned := s.spawned ++ [b] }
  | some _, none => none
  | some a, some b => if a = b then some s else none

/-- `CrdtRouter::sync_updater` — the body in the source is an empty
`// TODO`: the state is returned unchanged. -/
def CrdtRouter.sync_updater (s : NodeState) : NodeState := s

/-- The `CrdtRouter::set_ring` endpoint: `storage.set_ring_config(ring)`
followed by `self.sync_updater()` (the router's own, empty, version). -/
def CrdtRouter.set_ring (s : NodeState) (cf : RingConfig) : NodeState :=
  CrdtRouter.sync_updater (StorageInstance.set_ring_config s cf)

/-- `StorageInstance::get_here` — read the key's file under its per-key
lock; `none` iff the file does not exist. -/
def StorageInstance.get_here (file : Option (List Nat)) : Option (List Nat) := file

/-- `StorageInstance::put_here` — under the per-key lock: if the file
exists, read it, `merge_in_scope` with the incoming bytes, and write the
result; otherwise write the incoming bytes.  Returns the new file contents
together with the returned (post-merge) bytes; a merge failure surfaces as
an error and writes nothing. -/
def StorageInstance.put_here
    (mergeInScope : String → List Nat → List Nat → Except String (List Nat))
    (scope : String) (file : Option (List Nat)) (data : List Nat) :
    Except String (Option (List Nat) × List Nat) :=
  match file with
  | some current =>
    match mergeInScope scope current data with
    | .ok next => .ok (some next, next)
    | .error e => .error e
  | none => .ok (some data, data)

end Haze

/-! ## Built-in CRDT combinators (`src/crdt/crdt.rs`, `src/crdt/mod.rs`)

The built-in `Crdt` implementations, on their decoded domains.  Newtype
wrappers (`Max`, `Min`, `Version`) are modelled by their contents; element
merges appear as function parameters (the claim's laws are conditional on
the element merges satisfying them).  `HashSet` is modelled as `Finset`
(its `Eq` is extensional), `HashMap` as a function to `Option` (its `Eq` is
extensional key-by-key lookup). -/

namespace Haze

/-- `Crdt::merge` for `Max<T>`: Rust `std::cmp::max` — the second argument
when the comparison ties. -/
def maxMerge {α : Type} [LinearOrder α] (a b : α) : α :=
  if b < a then a else b

/-- `Crdt::merge_from` for `Max<T>`: replace `self` only when strictly
smaller than `other`. -/
def maxMergeFrom {α : Type} [LinearOrder α] (a b : α) : α :=
  match compare a b with
  | .lt => b
  | _ => a

/-- `Crdt::merge` for `Min<T>`: Rust `std::cmp::min` — the first argument
when the comparison ties. -/
def minMerge {α : Type} [LinearOrder α] (a b : α) : α :=
  if b < a then b else a

/-- `Crdt::merge_from` for `Min<T>`: replace `self` only when strictly
greater than `other`. -/
def minMergeFrom {α : Type} [LinearOrder α] (a b : α) : α :=
  match compare a b with
  | .gt => b
  | _ => a

/-- `Crdt::merge` for `Version<V, T>` (modelled as the pair `V × T`): the
value with the larger version wins; equal versions merge the payloads. -/
def versionMerge {V β : Type} [LinearOrder V] (m : β → β → β) (a b : V × β) : V × β :=
  match compare a.1 b.1 with
  | .lt => b
  | .eq => (a.1, m a.2 b.2)
  | .gt => a

/-- `Crdt::merge_from` for `Version<V, T>`: same case split, with the
payload's `merge_from`. -/
def versionMergeFrom {V β : Type} [LinearOrder V] (m : β → β → β) (a b : V × β) : V × β :=
  match compare a.1 b.1 with
  | .lt => b
  | .eq => (a.1, m a.2 b.2)
  | .gt => a

/-- `Crdt::merge` for pairs: merge the left and right components. -/
def pairMerge {α β : Type} (m1 : α → α → α) (m2 : β → β → β) (a b : α × β) : α × β :=
  (m1 a.1 b.1, m2 a.2 b.2)

/-- `Crdt::merge_from` for `Vec<T>`: if `other` is longer, move its excess
tail onto `self`; then merge `other`'s (possibly truncated) elements into
`self` index by index. -/
def vecMergeFrom {α : Type} (m : α → α → α) (a b : List α) : List α :=
  let a2 := if a.length < b.length then a ++ b.drop a.length else a
  let b2 := if a.length < b.length then b.take a.length else b
  List.zipWith m a2 b2 ++ a2.drop b2.length

/-- `Crdt::merge` for `Vec<T>`: keep the longer vector, merging the other
one into its prefix element by element (`self[i].merge_from(that)` when
`self` is strictly longer, `other[i].merge_from(this)` otherwise). -/
def vecMerge {α : Type} (m : α → α → α) (a b : List α) : List α :=
  if b.length < a.length then
    List.zipWith m a b ++ a.drop b.length
  else
    List.zipWith m b a ++ b.drop a.length

/-- `Crdt::merge_from` for `HashSet<T>`: insert every element of `other`
into `self` — the union.  (`merge` is the provided default, which calls
`merge_from`.) -/
def setMergeFrom {α : Type} [DecidableEq α] (a b : Finset α) : Finset α := a ∪ b

/-- `Crdt::merge_from` for `HashMap<K, T>`: for each key of `other`, merge
into the existing entry or insert.  (`merge` is the provided default.)
Maps are modelled extensionally as their lookup functions. -/
def mapMergeFrom {κ β : Type} (m : β → β → β) (a b : κ → Option β) : κ → Option β :=
  fun k =>
    match a k, b k with
    | some x, some y => some (m x y)
    | some x, none => some x
    | none, some y => some y
    | none, none => none

end Haze

/-! ## Controller: `ClusterConfig::parse` (`src/crdt/controller.rs`)

The consistency check the controller runs each reconciliation over the
`known` map of peer states.  The `HashMap`'s values are modelled as a list
(the map's iteration order); `first` is the head of that list, as in the
source's `configs.iter().next()`. -/

namespace Haze

/-- `ActualConfig` — what a peer reported for `get_ring()`. -/
inductive ActualConfig where
  | Configured (ring : RingConfig)
  | Unconfigured
deriving DecidableEq

/-- `ClusterConfig` — the consolidated cluster-wide ring config. -/
structure ClusterConfig where
  ring : RingConfig
deriving DecidableEq

/-- The configured peers' configs, in the `known` map's iteration order —
the source's `configs` local. -/
def ClusterConfig.configsOf (known : List (NetworkId × ActualConfig)) : List ClusterConfig :=
  known.filterMap fun p =>
    match p.2 with
    | .Configured ring => some ⟨ring⟩
    | .Unconfigured => none

/-- All update descriptors present across the configured peers — the
source's `updates` iterator. -/
def ClusterConfig.updatesOf (known : List (NetworkId × ActualConfig)) :
    List RingUpdateConfig :=
  (ClusterConfig.configsOf known).filterMap fun c => c.ring.update

/-- `ClusterConfig::parse` — consolidate the configured peers' ring
configs: collect all update descriptors and error when there are two or
more; error when no peer is configured; otherwise compute, from the first
config's nodes, the nodes-maps with and without the update applied, and
check every config's nodes is one of the two and every config's update is
absent or the one descriptor.  On success the result carries the
without-update nodes and the update. -/
def ClusterConfig.parse (known : List (NetworkId × ActualConfig)) : Except String ClusterConfig :=
  let configs : List ClusterConfig := ClusterConfig.configsOf known
  let updates := ClusterConfig.updatesOf known
  match updates with
  | _ :: _ :: _ => .error "cluster has multiple active updates"
  | _ =>
    let update := updates.head?
    match configs.head? with
    | none => .error "no configs"
    | some first =>
      let nodes_with_update :=
        match update with
        | some (.ToAdd vn ni) => first.ring.nodes.insert vn ni
        | some (.ToRemove vn _) => first.ring.nodes.erase vn
        | none => first.ring.nodes
      let nodes_without_update :=
        match update with
        | some (.ToAdd vn _) => first.ring.nodes.erase vn
        | some (.ToRemove vn ni) => first.ring.nodes.insert vn ni
        | none => first.ring.nodes
      if configs.all fun cc =>
          (decide (cc.ring.nodes = nodes_with_update) ||
             decide (cc.ring.nodes = nodes_without_update)) &&
          (decide (cc.ring.update = none) || decide (cc.ring.update = update))
      then .ok ⟨⟨nodes_without_update, update⟩⟩
      else .error "cluster has inconsistent config"

end Haze

/-! ## Claim theorems -/

namespace Haze

/-- **C1** — the claim states that the router endpoint `updating()` returns
exactly whether the migration worker is currently active (the storage's
active-update slot is occupied).  The code does not: the endpoint's body is
`Ok(rand::random_bool(0.9))`, a Bernoulli draw that never consults the
storage.  At the failing input — a node whose active-update slot is empty
and a draw of `true` (probability 0.9) — the endpoint returns `true` while
the storage's own `updating()` is `false`. -/
theorem C1_router_updating_is_random_stub :
    CrdtRouter.updating true = true ∧
    StorageInstance.updating ⟨none, none, none, []⟩ = false ∧
    CrdtRouter.updating true ≠ StorageInstance.updating ⟨none, none, none, []⟩ := by
  decide

/-- **C2** — the claim states that `set_ring(cfg)` on a node with an empty
active-update slot and `cfg.update = Some(u)` persists `ring.json`, swaps
the in-memory ring, stores `u` as the active update, and launches the
migration worker.  The code persists and swaps, but the router's `set_ring`
endpoint then calls the router's own `sync_updater`, whose body is an empty
`// TODO` — `StorageInstance::sync_updater`, which would store `u` and
spawn the worker, has no caller.  Evaluated at the failing input (empty
node, config whose update is `Some(ToAdd ..)`): the file and in-memory ring
are set, but the active-update slot stays empty and no worker is spawned,
even though the storage's `sync_updater` applied to the same state would
have activated both. -/
theorem C2_set_ring_never_launches_worker :
    CrdtRouter.set_ring ⟨none, none, none, []⟩
        ⟨∅, some (.ToAdd ⟨"n"⟩ ⟨"x"⟩)⟩ =
      ⟨some ⟨∅, some (.ToAdd ⟨"n"⟩ ⟨"x"⟩)⟩,
       some ⟨∅, some (.ToAdd ⟨"n"⟩ ⟨"x"⟩)⟩, none, []⟩ ∧
    StorageInstance.sync_updater
        (StorageInstance.set_ring_config ⟨none, none, none, []⟩
          ⟨∅, some (.ToAdd ⟨"n"⟩ ⟨"x"⟩)⟩) =
      some ⟨some ⟨∅, some (.ToAdd ⟨"n"⟩ ⟨"x"⟩)⟩,
            some ⟨∅, some (.ToAdd ⟨"n"⟩ ⟨"x"⟩)⟩,
            some (.ToAdd ⟨"n"⟩ ⟨"x"⟩), [.ToAdd ⟨"n"⟩ ⟨"x"⟩]⟩ := by
  exact ⟨rfl, rfl⟩

/-- **C10** — every cursor operation needs a non-empty ring: on the ring
built from zero virtual nodes, `HashRingCursor::new` — and with it
`cursor`, `range`, `get`, `next` — has no defined result for any key (the
source's `(i + n − 1) % n` with `n = 0` has no value), so the total
embedding returns `none`. -/
theorem C10_empty_ring_has_no_cursor (keyHash : Nat) :
    (HashRing.from_nodes []).data = [] ∧
    HashRingCursor.new (HashRing.from_nodes []) keyHash = none ∧
    (HashRing.from_nodes []).range keyHash = none := by
  exact ⟨rfl, rfl, rfl⟩

/-- **C4** — `put_here(s,k,v)` followed by `get_here(s,k)` returns
`merge_in_scope(s, prior, v)` when a prior value was stored and `v` when
none was, and `put_here` itself returns those same post-merge bytes.  The
hypothesis is the claim's side condition that the scope is bound and the
payloads decodable — i.e. that `merge_in_scope` succeeds on the prior and
incoming bytes. -/
theorem C4_put_here_then_get_here
    (mergeInScope : String → List Nat → List Nat → Except String (List Nat))
    (s : String) (prior v m : List Nat)
    (hm : mergeInScope s prior v = .ok m) :
    StorageInstance.put_here mergeInScope s (some prior) v = .ok (some m, m) ∧
    StorageInstance.get_here (some m) = some m ∧
    StorageInstance.put_here mergeInScope s none v = .ok (some v, v) ∧
    StorageInstance.get_here (some v) = some v := by
  refine ⟨?_, rfl, rfl, rfl⟩
  simp [StorageInstance.put_here, hm]

/-- Witness for C4 at a concrete merge function and concrete bytes. -/
theorem C4_witness :
    (fun (_ : String) (a b : List Nat) => (Except.ok (a ++ b) : Except String (List Nat)))
        "s" [1] [2] = .ok [1, 2] ∧
    (StorageInstance.put_here
        (fun (_ : String) (a b : List Nat) => (Except.ok (a ++ b) : Except String (List Nat)))
        "s" (some [1]) [2] = .ok (some [1, 2], [1, 2]) ∧
      StorageInstance.get_here (some [1, 2]) = some [1, 2] ∧
      StorageInstance.put_here
        (fun (_ : String) (a b : List Nat) => (Except.ok (a ++ b) : Except String (List Nat)))
        "s" none [2] = .ok (some [2], [2]) ∧
      StorageInstance.get_here (some [2]) = some [2]) :=
  ⟨rfl, C4_put_here_then_get_here _ "s" [1] [2] [1, 2] rfl⟩

/-- Whether a get plan's forwarded TTL (if it forwards at all) is the
decrement of the incoming TTL. -/
def GetPlan.decrements (ttl : Nat) : GetPlan → Bool
  | .forward _ t => t == ttl - 1
  | .mergeLocalRemote _ t => t == ttl - 1
  | .readLocal => true

/-- Whether a put plan's forwarded TTL (if it forwards at all) is the
decrement of the incoming TTL. -/
def PutPlan.decrements (ttl : Nat) : PutPlan → Bool
  | .forward _ t => t == ttl - 1
  | .writeLocal => true

/-- **C7** — a router `get` or `put` called with `ttl == 0` fails with the
TTL-expired error before any routing decision (and hence before any storage
read or write — the error branch precedes `with_ring` in the source), for
every ring state and peer situation; and whenever a call with `ttl = n + 1`
produces a plan, every forward in that plan — remote `get`, remote `put`,
or the drain-time remote leg of a merged read — carries `ttl - 1`. -/
theorem C7_ttl_expiry_and_decrement
    (myself : NetworkId) (ringState : Option (RingConfig × HashRing))
    (randomPeer : Option NetworkId) (ck : CompositeKey) (n : Nat)
    (p : GetPlan) (q : PutPlan)
    (hg : CrdtRouter.routeGet myself ringState randomPeer (n + 1) ck = .ok p)
    (hq : CrdtRouter.routePut myself ringState randomPeer (n + 1) ck = .ok q) :
    CrdtRouter.routeGet myself ringState randomPeer 0 ck = .error "ttl expired" ∧
    CrdtRouter.routePut myself ringState randomPeer 0 ck = .error "ttl expired" ∧
    p.decrements (n + 1) = true ∧
    q.decrements (n + 1) = true := by
  refine ⟨rfl, rfl, ?_, ?_⟩
  · unfold CrdtRouter.routeGet at hg
    rw [if_neg (Nat.succ_ne_zero n)] at hg
    cases ringState with
    | some st =>
      obtain ⟨cf, ring⟩ := st
      dsimp only at hg
      revert hg
      cases hact : CrdtRouter.action myself ck cf ring with
      | ok a => intro hg; cases a <;> (cases hg; simp [GetPlan.decrements])
      | error e => intro hg; cases hg
      | diverge => intro hg; cases hg
    | none =>
      cases randomPeer with
      | some peer => cases hg; simp [GetPlan.decrements]
      | none => cases hg
  · unfold CrdtRouter.routePut at hq
    rw [if_neg (Nat.succ_ne_zero n)] at hq
    cases ringState with
    | some st =>
      obtain ⟨cf, ring⟩ := st
      dsimp only at hq
      revert hq
      cases hact : CrdtRouter.action myself ck cf ring with
      | ok a => intro hq; cases a <;> (cases hq; simp [PutPlan.decrements])
      | error e => intro hq; cases hq
      | diverge => intro hq; cases hq
    | none =>
      cases randomPeer with
      | some peer => cases hq; simp [PutPlan.decrements]
      | none => cases hq

/-- Witness for C7: an unconfigured node with one peer forwards a TTL-5
`get` and `put` at TTL 4, and fails both at TTL 0. -/
theorem C7_witness :
    CrdtRouter.routeGet ⟨"me"⟩ none (some ⟨"p"⟩) 5 ⟨"s", "k"⟩ =
        .ok (.forward ⟨"p"⟩ 4) ∧
    CrdtRouter.routePut ⟨"me"⟩ none (some ⟨"p"⟩) 5 ⟨"s", "k"⟩ =
        .ok (.forward ⟨"p"⟩ 4) ∧
    (CrdtRouter.routeGet ⟨"me"⟩ none (some ⟨"p"⟩) 0 ⟨"s", "k"⟩ = .error "ttl expired" ∧
      CrdtRouter.routePut ⟨"me"⟩ none (some ⟨"p"⟩) 0 ⟨"s", "k"⟩ = .error "ttl expired" ∧
      GetPlan.decrements 5 (.forward ⟨"p"⟩ 4) = true ∧
      PutPlan.decrements 5 (.forward ⟨"p"⟩ 4) = true) :=
  ⟨rfl, rfl,
    C7_ttl_expiry_and_decrement ⟨"me"⟩ none (some ⟨"p"⟩) ⟨"s", "k"⟩ 4
      (.forward ⟨"p"⟩ 4) (.forward ⟨"p"⟩ 4) rfl rfl⟩

end Haze

namespace Haze

/-- Splitting a list at a delimiter is unambiguous when the delimiter occurs
in neither left part. -/
theorem delim_split_inj {α : Type} {c : α} :
    ∀ {l1 l2 r1 r2 : List α}, c ∉ l1 → c ∉ l2 →
      l1 ++ c :: r1 = l2 ++ c :: r2 → l1 = l2 ∧ r1 = r2 := by
  intro l1
  induction l1 with
  | nil =>
    intro l2 r1 r2 _ h2 h
    cases l2 with
    | nil => simpa using h
    | cons y u =>
      injection h with hx _
      subst hx
      exact absurd (List.mem_cons_self _ _) h2
  | cons x t ih =>
    intro l2 r1 r2 h1 h2 h
    cases l2 with
    | nil =>
      injection h with hx _
      subst hx
      exact absurd (List.mem_cons_self _ _) h1
    | cons y u =>
      injection h with hxy ht
      have h1' : c ∉ t := fun hc => h1 (List.mem_cons_of_mem x hc)
      have h2' : c ∉ u := fun hc => h2 (List.mem_cons_of_mem y hc)
      obtain ⟨hl, hr⟩ := ih h1' h2' ht
      exact ⟨by rw [hxy, hl], hr⟩

/-- The data of the one-character NUL string literal. -/
theorem nul_string_data : ("\x00" : String).data = [Char.ofNat 0] := by decide

/-- **C9 (counterexample)** — the claim states that any two distinct
`(scope, key)` pairs produce distinct pre-image byte strings
`scope || 0x00 || key`.  It fails when a scope may itself contain the NUL
delimiter (which the source anticipates — path sanitization escapes NUL in
scopes and keys): `("a\0b", "c")` and `("a", "b\0c")` are distinct pairs
with the same pre-image, hence the same ring-placement hash. -/
theorem C9_nul_scope_collision :
    CompositeKey.preimage ⟨"a\x00b", "c"⟩ = CompositeKey.preimage ⟨"a", "b\x00c"⟩ ∧
    (⟨"a\x00b", "c"⟩ : CompositeKey) ≠ ⟨"a", "b\x00c"⟩ ∧
    CompositeKey.as_sha256 ⟨"a\x00b", "c"⟩ = CompositeKey.as_sha256 ⟨"a", "b\x00c"⟩ := by
  have h : CompositeKey.preimage ⟨"a\x00b", "c"⟩ = CompositeKey.preimage ⟨"a", "b\x00c"⟩ := by
    decide
  exact ⟨h, by decide, congrArg Sha256.natOfString h⟩

/-- **C9 (amended)** — the ring-placement hash of a composite key is
SHA-256 of the byte string `scope || 0x00 || key`, and for pairs whose
scope contains no NUL character the encoding is injective: two such pairs
with equal pre-images are equal (so, barring SHA-256 collisions, distinct
pairs get distinct ring positions).  The claim's unconditional scope
isolation had to be weakened by the NUL-in-scope counterexample. -/
theorem C9_preimage_sha_and_injectivity
    (ck1 ck2 : CompositeKey)
    (h1 : Char.ofNat 0 ∉ ck1.scope.data) (h2 : Char.ofNat 0 ∉ ck2.scope.data)
    (h : ck1.preimage = ck2.preimage) :
    ck1 = ck2 ∧ ck1.as_sha256 = Sha256.natOfString ck1.preimage := by
  refine ⟨?_, rfl⟩
  have hd : ck1.scope.data ++ Char.ofNat 0 :: ck1.key.data =
      ck2.scope.data ++ Char.ofNat 0 :: ck2.key.data := by
    have hcongr := congrArg String.data h
    simpa [CompositeKey.preimage, String.data_append, nul_string_data] using hcongr
  obtain ⟨hs, hk⟩ := delim_split_inj h1 h2 hd
  have hs' : ck1.scope = ck2.scope := String.ext hs
  have hk' : ck1.key = ck2.key := String.ext hk
  cases ck1
  cases ck2
  simp_all

/-- Witness for C9's amended theorem at concrete NUL-free pairs. -/
theorem C9_witness :
    Char.ofNat 0 ∉ ("s" : String).data ∧
    ((⟨"s", "k"⟩ : CompositeKey) = ⟨"s", "k"⟩ ∧
      CompositeKey.as_sha256 ⟨"s", "k"⟩ = Sha256.natOfString (CompositeKey.preimage ⟨"s", "k"⟩)) :=
  ⟨by decide, C9_preimage_sha_and_injectivity ⟨"s", "k"⟩ ⟨"s", "k"⟩ (by decide) (by decide) rfl⟩

end Haze

namespace Haze

/-- The action-selection rule as the claim words it: let `ni0` be the
network of the start of the range containing the key; forward when it is
not `myself`; otherwise `StoreAdding(ni)` when a `ToAdd { vn, ni }` update
is in flight and the range contains `vn`; otherwise `Store`. -/
def specAction (myself ni0 : NetworkId) (update : Option RingUpdateConfig)
    (r : HashRingRange) : Action :=
  if ni0 ≠ myself then .Forward ni0
  else
    match update with
    | some (.ToAdd vn ni) =>
      if r.contains vn.as_sha256 then .StoreAdding ni else .Store
    | _ => .Store

/-- The dispatch of a `get` on its action as the claim/spec words it:
forward to the owner, read locally, or fan out locally and to the new
owner, forwards carrying `ttl - 1`. -/
def specGetPlan (a : Action) (ttl : Nat) : RpcOutcome GetPlan :=
  match a with
  | .Forward ni => .ok (.forward ni (ttl - 1))
  | .Store => .ok .readLocal
  | .StoreAdding ni => .ok (.mergeLocalRemote ni (ttl - 1))

/-- The dispatch of a `put` on its action as the claim/spec words it: a put
is forwarded — with `ttl - 1` — both on `Forward(ni)` and on
`StoreAdding(ni)` (never written locally during a drain), and only `Store`
writes locally. -/
def specPutPlan (a : Action) (ttl : Nat) : RpcOutcome PutPlan :=
  match a with
  | .Forward ni => .ok (.forward ni (ttl - 1))
  | .Store => .ok .writeLocal
  | .StoreAdding ni => .ok (.forward ni (ttl - 1))

/-- **C3 (counterexample)** — the claim's "otherwise the action is
`Store`" is false as stated: with the ring's single slot owned by
`myself` and an in-flight `ToRemove` update, the source's action selection
reaches a `todo!()` and panics instead of returning `Store`. -/
theorem C3_to_remove_panics :
    CrdtRouter.action ⟨"me"⟩ ⟨"s", "k"⟩
        ⟨Finmap.insert ⟨"a"⟩ ⟨"me"⟩ ∅, some (.ToRemove ⟨"a"⟩ ⟨"me"⟩)⟩
        (HashRing.from_nodes [⟨"a"⟩]) = .diverge ∧
    (RpcOutcome.diverge : RpcOutcome Action) ≠ .ok .Store := by
  exact ⟨by decide, by decide⟩

/-- **C3 (amended)** — for every composite key under a configured ring:
with `r` the range containing the key and `ni0` the network id of its
starting virtual node, if `ni0 ≠ myself` the action is `Forward(ni0)`; if
`ni0 = myself` and the update is `Some(ToAdd { vn, ni })` with `r`
containing `vn`, the action is `StoreAdding(ni)`; otherwise — provided the
update is not a `ToRemove`, on which the source panics in a `todo!()`
instead of storing — the action is `Store`.  Moreover `get` and `put`
dispatch on that action as the claim states: both forward on `Forward(ni0)`
with decremented TTL, and a `put` under `StoreAdding(ni)` is forwarded only
to the new owner `ni`, never written locally. -/
theorem C3_action_selection
    (myself : NetworkId) (ck : CompositeKey) (cf : RingConfig) (ring : HashRing)
    (randomPeer : Option NetworkId) (n : Nat) (r : HashRingRange) (ni0 : NetworkId)
    (hr : ring.range ck.as_sha256 = some r)
    (hni : cf.network_id r.start = some ni0)
    (hupd : ∀ vn ni, cf.update ≠ some (.ToRemove vn ni)) :
    CrdtRouter.action myself ck cf ring = .ok (specAction myself ni0 cf.update r) ∧
    CrdtRouter.routeGet myself (some (cf, ring)) randomPeer (n + 1) ck =
      specGetPlan (specAction myself ni0 cf.update r) (n + 1) ∧
    CrdtRouter.routePut myself (some (cf, ring)) randomPeer (n + 1) ck =
      specPutPlan (specAction myself ni0 cf.update r) (n + 1) := by
  have hact : CrdtRouter.action myself ck cf ring =
      .ok (specAction myself ni0 cf.update r) := by
    unfold CrdtRouter.action specAction
    rw [hr]
    dsimp only
    rw [hni]
    by_cases hm : ni0 = myself
    · cases hu : cf.update with
      | none => simp [hm, hu]
      | some u =>
        cases u with
        | ToAdd vn ni =>
          simp only [hm, hu, ne_eq, not_true_eq_false, if_false]
          cases hc : r.contains vn.as_sha256 <;> simp [hc]
        | ToRemove vn ni => exact absurd hu (hupd vn ni)
    · simp [hm]
  refine ⟨hact, ?_, ?_⟩
  · unfold CrdtRouter.routeGet
    rw [if_neg (Nat.succ_ne_zero n)]
    dsimp only
    rw [hact]
    cases specAction myself ni0 cf.update r <;> rfl
  · unfold CrdtRouter.routePut
    rw [if_neg (Nat.succ_ne_zero n)]
    dsimp only
    rw [hact]
    cases specAction myself ni0 cf.update r <;> rfl

/-- Witness for C3 at a concrete configuration: a single-slot ring owned by
`"me"`, queried from `"other"`, so every key forwards to `"me"`. -/
theorem C3_witness :
    (HashRing.from_nodes [⟨"a"⟩]).range (CompositeKey.as_sha256 ⟨"s", "k"⟩) =
        some ⟨Sha256.natOfString "a", Sha256.natOfString "a", ⟨"a"⟩, ⟨"a"⟩⟩ ∧
    RingConfig.network_id ⟨Finmap.insert ⟨"a"⟩ ⟨"me"⟩ ∅, none⟩
        (HashRingRange.start ⟨Sha256.natOfString "a", Sha256.natOfString "a", ⟨"a"⟩, ⟨"a"⟩⟩) =
      some ⟨"me"⟩ ∧
    (CrdtRouter.action ⟨"other"⟩ ⟨"s", "k"⟩ ⟨Finmap.insert ⟨"a"⟩ ⟨"me"⟩ ∅, none⟩
          (HashRing.from_nodes [⟨"a"⟩]) =
        .ok (specAction ⟨"other"⟩ ⟨"me"⟩ none
          ⟨Sha256.natOfString "a", Sha256.natOfString "a", ⟨"a"⟩, ⟨"a"⟩⟩) ∧
      CrdtRouter.routeGet ⟨"other"⟩
          (some (⟨Finmap.insert ⟨"a"⟩ ⟨"me"⟩ ∅, none⟩, HashRing.from_nodes [⟨"a"⟩])) none
          (7 + 1) ⟨"s", "k"⟩ =
        specGetPlan (specAction ⟨"other"⟩ ⟨"me"⟩ none
          ⟨Sha256.natOfString "a", Sha256.natOfString "a", ⟨"a"⟩, ⟨"a"⟩⟩) (7 + 1) ∧
      CrdtRouter.routePut ⟨"other"⟩
          (some (⟨Finmap.insert ⟨"a"⟩ ⟨"me"⟩ ∅, none⟩, HashRing.from_nodes [⟨"a"⟩])) none
          (7 + 1) ⟨"s", "k"⟩ =
        specPutPlan (specAction ⟨"other"⟩ ⟨"me"⟩ none
          ⟨Sha256.natOfString "a", Sha256.natOfString "a", ⟨"a"⟩, ⟨"a"⟩⟩) (7 + 1)) :=
  ⟨by decide, by decide,
    C3_action_selection ⟨"other"⟩ ⟨"s", "k"⟩ ⟨Finmap.insert ⟨"a"⟩ ⟨"me"⟩ ∅, none⟩
      (HashRing.from_nodes [⟨"a"⟩]) none 7
      ⟨Sha256.natOfString "a", Sha256.natOfString "a", ⟨"a"⟩, ⟨"a"⟩⟩ ⟨"me"⟩
      (by decide) (by decide) (fun vn ni h => by cases h)⟩

end Haze

namespace Haze

theorem maxMerge_eq_max {α : Type} [LinearOrder α] (a b : α) : maxMerge a b = max a b := by
  rcases lt_trichotomy a b with h | h | h
  · simp [maxMerge, lt_asymm h, max_eq_right h.le]
  · simp [maxMerge, h]
  · simp [maxMerge, h, max_eq_left h.le]

theorem maxMergeFrom_eq_max {α : Type} [LinearOrder α] (a b : α) : maxMergeFrom a b = max a b := by
  rcases lt_trichotomy a b with h | h | h
  · simp [maxMergeFrom, compare_lt_iff_lt.mpr h, max_eq_right h.le]
  · subst h
    simp [maxMergeFrom, compare_eq_iff_eq.mpr rfl]
  · have : compare a b = .gt := compare_gt_iff_gt.mpr h
    simp [maxMergeFrom, this, max_eq_left h.le]

theorem minMerge_eq_min {α : Type} [LinearOrder α] (a b : α) : minMerge a b = min a b := by
  rcases lt_trichotomy a b with h | h | h
  · simp [minMerge, lt_asymm h, min_eq_left h.le]
  · simp [minMerge, h]
  · simp [minMerge, h, min_eq_right h.le]

theorem minMergeFrom_eq_min {α : Type} [LinearOrder α] (a b : α) : minMergeFrom a b = min a b := by
  rcases lt_trichotomy a b with h | h | h
  · have : compare a b = .lt := compare_lt_iff_lt.mpr h
    simp [minMergeFrom, this, min_eq_left h.le]
  · subst h
    simp [minMergeFrom, compare_eq_iff_eq.mpr rfl]
  · have : compare a b = .gt := compare_gt_iff_gt.mpr h
    simp [minMergeFrom, this, min_eq_right h.le]

theorem versionMerge_lt {V β : Type} [LinearOrder V] (m : β → β → β) {a b : V × β}
    (h : a.1 < b.1) : versionMerge m a b = b := by
  simp [versionMerge, compare_lt_iff_lt.mpr h]

theorem versionMerge_gt {V β : Type} [LinearOrder V] (m : β → β → β) {a b : V × β}
    (h : b.1 < a.1) : versionMerge m a b = a := by
  have : compare a.1 b.1 = .gt := compare_gt_iff_gt.mpr h
  simp [versionMerge, this]

theorem versionMerge_veq {V β : Type} [LinearOrder V] (m : β → β → β) {a b : V × β}
    (h : a.1 = b.1) : versionMerge m a b = (a.1, m a.2 b.2) := by
  simp [versionMerge, compare_eq_iff_eq.mpr h]

theorem versionMergeFrom_eq {V β : Type} [LinearOrder V] (m : β → β → β) (a b : V × β) :
    versionMergeFrom m a b = versionMerge m a b := rfl

theorem versionMerge_comm {V β : Type} [LinearOrder V] (m : β → β → β)
    (hc : ∀ x y, m x y = m y x) (a b : V × β) :
    versionMerge m a b = versionMerge m b a := by
  rcases lt_trichotomy a.1 b.1 with h | h | h
  · rw [versionMerge_lt m h, versionMerge_gt m h]
  · rw [versionMerge_veq m h, versionMerge_veq m h.symm, Prod.ext_iff]
    exact ⟨h, hc a.2 b.2⟩
  · rw [versionMerge_gt m h, versionMerge_lt m h]

theorem versionMerge_assoc {V β : Type} [LinearOrder V] (m : β → β → β)
    (ha : ∀ x y z, m (m x y) z = m x (m y z)) (a b c : V × β) :
    versionMerge m (versionMerge m a b) c = versionMerge m a (versionMerge m b c) := by
  rcases lt_trichotomy a.1 b.1 with hab | hab | hab <;>
    rcases lt_trichotomy b.1 c.1 with hbc | hbc | hbc
  · rw [versionMerge_lt m hab, versionMerge_lt m hbc, versionMerge_lt m (hab.trans hbc)]
  · rw [versionMerge_lt m hab, versionMerge_veq m hbc,
      versionMerge_lt m (show a.1 < (b.1, m b.2 c.2).1 from hab)]
  · rw [versionMerge_lt m hab, versionMerge_gt m hbc, versionMerge_lt m hab]
  · rw [versionMerge_veq m hab, versionMerge_lt m (show (a.1, m a.2 b.2).1 < c.1 from hab ▸ hbc),
      versionMerge_lt m hbc, versionMerge_lt m (hab ▸ hbc)]
  · rw [versionMerge_veq m hab, versionMerge_veq m hbc,
      versionMerge_veq m (show (a.1, m a.2 b.2).1 = c.1 from hab.trans hbc),
      versionMerge_veq m (show a.1 = (b.1, m b.2 c.2).1 from hab.trans hbc ▸ hab)]
    simpa using ha a.2 b.2 c.2
  · rw [versionMerge_veq m hab, versionMerge_gt m (show c.1 < (a.1, m a.2 b.2).1 from hab ▸ hbc),
      versionMerge_gt m hbc, versionMerge_veq m hab]
  · rw [versionMerge_gt m hab, versionMerge_lt m hbc]
  · rw [versionMerge_gt m hab, versionMerge_veq m hbc,
      versionMerge_gt m (show (b.1, m b.2 c.2).1 < a.1 from hbc ▸ hab),
      versionMerge_gt m (show c.1 < a.1 from hbc ▸ hab)]
  · rw [versionMerge_gt m hab, versionMerge_gt m hbc, versionMerge_gt m (hbc.trans hab),
      versionMerge_gt m hab]

theorem versionMerge_idem {V β : Type} [LinearOrder V] (m : β → β → β)
    (hi : ∀ x, m x x = x) (a : V × β) : versionMerge m a a = a := by
  rw [versionMerge_veq m rfl, hi]

theorem vecMerge_nil_left {α : Type} (m : α → α → α) (b : List α) : vecMerge m [] b = b := by
  simp [vecMerge]

theorem vecMerge_nil_right {α : Type} (m : α → α → α) (a : List α) : vecMerge m a [] = a := by
  cases a <;> simp [vecMerge]

theorem vecMerge_cons {α : Type} (m : α → α → α) (hc : ∀ x y, m x y = m y x)
    (x y : α) (xs ys : List α) :
    vecMerge m (x :: xs) (y :: ys) = m x y :: vecMerge m xs ys := by
  by_cases h : ys.length < xs.length
  · simp [vecMerge, h]
  · simp [vecMerge, h, hc x y]

theorem vecMergeFrom_nil_left {α : Type} (m : α → α → α) (b : List α) :
    vecMergeFrom m [] b = b := by
  cases b <;> simp [vecMergeFrom]

theorem vecMergeFrom_nil_right {α : Type} (m : α → α → α) (a : List α) :
    vecMergeFrom m a [] = a := by
  simp [vecMergeFrom]

theorem vecMergeFrom_cons {α : Type} (m : α → α → α) (x y : α) (xs ys : List α) :
    vecMergeFrom m (x :: xs) (y :: ys) = m x y :: vecMergeFrom m xs ys := by
  by_cases h : xs.length < ys.length
  · simp [vecMergeFrom, h]
  · simp [vecMergeFrom, h]

theorem vecMerge_comm {α : Type} (m : α → α → α) (hc : ∀ x y, m x y = m y x) :
    ∀ a b : List α, vecMerge m a b = vecMerge m b a := by
  intro a
  induction a with
  | nil => intro b; rw [vecMerge_nil_left, vecMerge_nil_right]
  | cons x xs ih =>
    intro b
    cases b with
    | nil => rw [vecMerge_nil_left, vecMerge_nil_right]
    | cons y ys => rw [vecMerge_cons m hc, vecMerge_cons m hc, hc x y, ih]

theorem vecMerge_assoc {α : Type} (m : α → α → α) (hc : ∀ x y, m x y = m y x)
    (ha : ∀ x y z, m (m x y) z = m x (m y z)) :
    ∀ a b c : List α, vecMerge m (vecMerge m a b) c = vecMerge m a (vecMerge m b c) := by
  intro a
  induction a with
  | nil => intro b c; rw [vecMerge_nil_left, vecMerge_nil_left]
  | cons x xs ih =>
    intro b c
    cases b with
    | nil => rw [vecMerge_nil_right, vecMerge_nil_left]
    | cons y ys =>
      cases c with
      | nil => rw [vecMerge_nil_right, vecMerge_nil_right]
      | cons z zs =>
        rw [vecMerge_cons m hc, vecMerge_cons m hc, vecMerge_cons m hc, vecMerge_cons m hc,
          ha x y z, ih]

theorem vecMerge_idem {α : Type} (m : α → α → α) (hc : ∀ x y, m x y = m y x)
    (hi : ∀ x, m x x = x) : ∀ a : List α, vecMerge m a a = a := by
  intro a
  induction a with
  | nil => rw [vecMerge_nil_left]
  | cons x xs ih => rw [vecMerge_cons m hc, hi, ih]

theorem vecMergeFrom_eq_vecMerge {α : Type} (m : α → α → α) (hc : ∀ x y, m x y = m y x) :
    ∀ a b : List α, vecMergeFrom m a b = vecMerge m a b := by
  intro a
  induction a with
  | nil => intro b; rw [vecMergeFrom_nil_left, vecMerge_nil_left]
  | cons x xs ih =>
    intro b
    cases b with
    | nil => rw [vecMergeFrom_nil_right, vecMerge_nil_right]
    | cons y ys => rw [vecMergeFrom_cons, vecMerge_cons m hc, ih]

theorem mapMergeFrom_comm {κ β : Type} (m : β → β → β) (hc : ∀ x y, m x y = m y x)
    (f g : κ → Option β) : mapMergeFrom m f g = mapMergeFrom m g f := by
  funext k
  unfold mapMergeFrom
  cases f k <;> cases g k <;> simp [hc]

theorem mapMergeFrom_assoc {κ β : Type} (m : β → β → β)
    (ha : ∀ x y z, m (m x y) z = m x (m y z)) (f g h : κ → Option β) :
    mapMergeFrom m (mapMergeFrom m f g) h = mapMergeFrom m f (mapMergeFrom m g h) := by
  funext k
  unfold mapMergeFrom
  cases f k <;> cases g k <;> cases h k <;> simp [ha]

theorem mapMergeFrom_idem {κ β : Type} (m : β → β → β) (hi : ∀ x, m x x = x)
    (f : κ → Option β) : mapMergeFrom m f f = f := by
  funext k
  unfold mapMergeFrom
  cases f k <;> simp [hi]

end Haze

namespace Haze

/-- `Crdt::merge_from` for pairs — componentwise, like `merge`. -/
def pairMergeFrom {α β : Type} (m1 : α → α → α) (m2 : β → β → β) (a b : α × β) : α × β :=
  (m1 a.1 b.1, m2 a.2 b.2)

/-- `Crdt::merge` for `HashSet<T>` — the provided default, which calls
`merge_from`. -/
def setMerge {α : Type} [DecidableEq α] (a b : Finset α) : Finset α := setMergeFrom a b

/-- `Crdt::merge` for `HashMap<K, T>` — the provided default, which calls
`merge_from`. -/
def mapMerge {κ β : Type} (m : β → β → β) (a b : κ → Option β) : κ → Option β :=
  mapMergeFrom m a b

/-- The claim's laws, bundled: for each built-in combinator — `Max`, `Min`,
`Version<V,T>`, pair, `Vec`, `HashSet`, `HashMap` — merge is commutative,
associative, and idempotent at the given points, and agrees with
`merge_from`. -/
def CrdtLawBundle {α V β γ κ : Type} [LinearOrder α] [LinearOrder V] [DecidableEq γ]
    (m : β → β → β) (a b c : α) (va vb vc : V × β) (pa pb pc : β × β)
    (la lb lc : List β) (sa sb sc : Finset γ) (fa fb fc : κ → Option β) : Prop :=
  (maxMerge a b = maxMerge b a ∧
    maxMerge (maxMerge a b) c = maxMerge a (maxMerge b c) ∧
    maxMerge a a = a ∧ maxMergeFrom a b = maxMerge a b) ∧
  (minMerge a b = minMerge b a ∧
    minMerge (minMerge a b) c = minMerge a (minMerge b c) ∧
    minMerge a a = a ∧ minMergeFrom a b = minMerge a b) ∧
  (versionMerge m va vb = versionMerge m vb va ∧
    versionMerge m (versionMerge m va vb) vc = versionMerge m va (versionMerge m vb vc) ∧
    versionMerge m va va = va ∧ versionMergeFrom m va vb = versionMerge m va vb) ∧
  (pairMerge m m pa pb = pairMerge m m pb pa ∧
    pairMerge m m (pairMerge m m pa pb) pc = pairMerge m m pa (pairMerge m m pb pc) ∧
    pairMerge m m pa pa = pa ∧ pairMergeFrom m m pa pb = pairMerge m m pa pb) ∧
  (vecMerge m la lb = vecMerge m lb la ∧
    vecMerge m (vecMerge m la lb) lc = vecMerge m la (vecMerge m lb lc) ∧
    vecMerge m la la = la ∧ vecMergeFrom m la lb = vecMerge m la lb) ∧
  (setMergeFrom sa sb = setMergeFrom sb sa ∧
    setMergeFrom (setMergeFrom sa sb) sc = setMergeFrom sa (setMergeFrom sb sc) ∧
    setMergeFrom sa sa = sa ∧ setMerge sa sb = setMergeFrom sa sb) ∧
  (mapMergeFrom m fa fb = mapMergeFrom m fb fa ∧
    mapMergeFrom m (mapMergeFrom m fa fb) fc = mapMergeFrom m fa (mapMergeFrom m fb fc) ∧
    mapMergeFrom m fa fa = fa ∧ mapMerge m fa fb = mapMergeFrom m fa fb)

/-- **C5** — for every built-in CRDT combinator (`Max`, `Min`,
`Version<V,T>`, pair, `Vec`, `HashSet`, `HashMap`) and all values of that
type, assuming the element merge satisfies the same laws (`hc`, `ha`,
`hi`), merge is commutative, associative, and idempotent, and agrees with
`merge_from`. -/
theorem C5_crdt_laws {α V β γ κ : Type} [LinearOrder α] [LinearOrder V] [DecidableEq γ]
    (m : β → β → β)
    (hc : ∀ x y, m x y = m y x)
    (ha : ∀ x y z, m (m x y) z = m x (m y z))
    (hi : ∀ x, m x x = x)
    (a b c : α) (va vb vc : V × β) (pa pb pc : β × β)
    (la lb lc : List β) (sa sb sc : Finset γ) (fa fb fc : κ → Option β) :
    CrdtLawBundle m a b c va vb vc pa pb pc la lb lc sa sb sc fa fb fc := by
  refine ⟨⟨?_, ?_, ?_, ?_⟩, ⟨?_, ?_, ?_, ?_⟩, ⟨?_, ?_, ?_, ?_⟩, ⟨?_, ?_, ?_, ?_⟩,
    ⟨?_, ?_, ?_, ?_⟩, ⟨?_, ?_, ?_, ?_⟩, ⟨?_, ?_, ?_, ?_⟩⟩
  · rw [maxMerge_eq_max, maxMerge_eq_max, max_comm]
  · rw [maxMerge_eq_max, maxMerge_eq_max, maxMerge_eq_max, maxMerge_eq_max, max_assoc]
  · rw [maxMerge_eq_max, max_self]
  · rw [maxMergeFrom_eq_max, maxMerge_eq_max]
  · rw [minMerge_eq_min, minMerge_eq_min, min_comm]
  · rw [minMerge_eq_min, minMerge_eq_min, minMerge_eq_min, minMerge_eq_min, min_assoc]
  · rw [minMerge_eq_min, min_self]
  · rw [minMergeFrom_eq_min, minMerge_eq_min]
  · exact versionMerge_comm m hc va vb
  · exact versionMerge_assoc m ha va vb vc
  · exact versionMerge_idem m hi va
  · exact versionMergeFrom_eq m va vb
  · exact Prod.ext (hc pa.1 pb.1) (hc pa.2 pb.2)
  · exact Prod.ext (ha pa.1 pb.1 pc.1) (ha pa.2 pb.2 pc.2)
  · exact Prod.ext (hi pa.1) (hi pa.2)
  · rfl
  · exact vecMerge_comm m hc la lb
  · exact vecMerge_assoc m hc ha la lb lc
  · exact vecMerge_idem m hc hi la
  · exact vecMergeFrom_eq_vecMerge m hc la lb
  · exact Finset.union_comm sa sb
  · exact Finset.union_assoc sa sb sc
  · exact Finset.union_self sa
  · rfl
  · exact mapMergeFrom_comm m hc fa fb
  · exact mapMergeFrom_assoc m ha fa fb fc
  · exact mapMergeFrom_idem m hi fa
  · rfl

/-- Witness for C5 at a concrete element merge (`max` on `Nat`, whose
commutativity, associativity and idempotence discharge the hypotheses) and
concrete values of every combinator. -/
theorem C5_witness :
    CrdtLawBundle (γ := Bool) (κ := Bool) (fun x y : Nat => max x y)
      (1 : Nat) 2 3 ((1 : Nat), (2 : Nat)) (1, 3) (2, 2) ((1 : Nat), (2 : Nat)) (3, 4) (5, 6)
      [1, 2] [3] [4, 5, 6] {true} {false} {true, false}
      (fun _ => some 1) (fun k => if k = true then some 2 else none) (fun _ => none) :=
  C5_crdt_laws (fun x y : Nat => max x y)
    (fun x y => max_comm x y) (fun x y z => max_assoc x y z) (fun x => max_self x)
    1 2 3 (1, 2) (1, 3) (2, 2) (1, 2) (3, 4) (5, 6)
    [1, 2] [3] [4, 5, 6] {true} {false} {true, false}
    (fun _ => some 1) (fun k => if k = true then some 2 else none) (fun _ => none)

end Haze

namespace Haze

/-- Every entry of `takeWhile p` (looked up by index into the original
list) satisfies `p`. -/
theorem takeWhile_get_true {α : Type} (p : α → Bool) :
    ∀ (l : List α) (j : Nat) (hj : j < (l.takeWhile p).length) (hjl : j < l.length),
      p (l.get ⟨j, hjl⟩) = true := by
  intro l
  induction l with
  | nil => intro j hj hjl; simp at hjl
  | cons a t ih =>
    intro j hj hjl
    by_cases hpa : p a
    · cases j with
      | zero => simpa using hpa
      | succ j' =>
        simp only [List.takeWhile_cons, hpa, if_true, List.length_cons,
          Nat.succ_lt_succ_iff] at hj
        exact ih j' hj (by simpa using hjl)
    · simp [List.takeWhile_cons, hpa] at hj
  
/-- The entry just past `takeWhile p` (when it exists) fails `p`. -/
theorem takeWhile_get_false {α : Type} (p : α → Bool) :
    ∀ (l : List α) (h : (l.takeWhile p).length < l.length),
      p (l.get ⟨(l.takeWhile p).length, h⟩) = false := by
  intro l
  induction l with
  | nil => intro h; simp at h
  | cons a t ih =>
    intro h
    by_cases hpa : p a
    · have := ih (by simpa [List.takeWhile_cons, hpa, Nat.succ_lt_succ_iff] using h)
      simpa [List.takeWhile_cons, hpa] using this
    · simpa [List.takeWhile_cons, hpa] using hpa

/-- `takeWhile` never exceeds the original length. -/
theorem takeWhile_len_le {α : Type} (p : α → Bool) :
    ∀ l : List α, (l.takeWhile p).length ≤ l.length := by
  intro l
  induction l with
  | nil => simp
  | cons a t ih =>
    by_cases hpa : p a <;> simp [List.takeWhile_cons, hpa] <;> omega

/-- Strictly sorted ring data is strictly monotone by index. -/
theorem strictSorted_get_lt (ring : HashRing) (hs : ring.StrictSorted) {i j : Nat}
    (hij : i < j) (hj : j < ring.data.length) :
    (ring.data.get ⟨i, hij.trans hj⟩).1 < (ring.data.get ⟨j, hj⟩).1 :=
  List.pairwise_iff_get.mp hs ⟨i, hij.trans hj⟩ ⟨j, hj⟩ hij

/-- Strictly sorted ring data is monotone by index. -/
theorem strictSorted_get_le (ring : HashRing) (hs : ring.StrictSorted) {i j : Nat}
    (hij : i ≤ j) (hj : j < ring.data.length) :
    (ring.data.get ⟨i, Nat.lt_of_le_of_lt hij hj⟩).1 ≤ (ring.data.get ⟨j, hj⟩).1 := by
  rcases Nat.eq_or_lt_of_le hij with h | h
  · subst h; exact le_refl _
  · exact le_of_lt (strictSorted_get_lt ring hs h hj)

/-- Whether cursor position `i`'s range contains the key hash `x` — the
"cursor position's range contains k" test of the claim, built from the
source's `range`/`contains`. -/
def containsAt (ring : HashRing) (i : Nat) (x : Nat) : Bool :=
  match HashRingCursor.rangeAt ring i with
  | some r => r.contains x
  | none => false

/-- `rangeAt` at a valid index, on a coherent ring, is the stored hashes
and virtual nodes of the slot and its successor. -/
theorem rangeAt_eq (ring : HashRing) (hcoh : ring.Coherent) {i : Nat}
    (hi : i < ring.data.length)
    (hni : (i + 1) % ring.data.length < ring.data.length) :
    HashRingCursor.rangeAt ring i =
      some ⟨(ring.data.get ⟨i, hi⟩).1,
            (ring.data.get ⟨(i + 1) % ring.data.length, hni⟩).1,
            (ring.data.get ⟨i, hi⟩).2,
            (ring.data.get ⟨(i + 1) % ring.data.length, hni⟩).2⟩ := by
  have ha := hcoh _ (List.get_mem ring.data i hi)
  have hb := hcoh _ (List.get_mem ring.data ((i + 1) % ring.data.length) hni)
  simp only [HashRingCursor.rangeAt, HashRingCursor.get, HashRingCursor.next,
    List.get?_eq_get hi, List.get?_eq_get hni]
  simp only [List.get_eq_getElem] at ha hb
  simp [HashRingRange.new, ha, hb]

end Haze

namespace Haze

/-- On a strictly sorted, coherent ring, a non-final cursor position's range
membership is the half-open interval test between its hash and the next. -/
theorem containsAt_mid (ring : HashRing) (hs : ring.StrictSorted) (hcoh : ring.Coherent)
    {i x : Nat} (hi1 : i + 1 < ring.data.length) :
    containsAt ring i x =
      (decide (ring.data[i].1 ≤ x) && decide (x < ring.data[i + 1].1)) := by
  have hi : i < ring.data.length := by omega
  have hmod : (i + 1) % ring.data.length = i + 1 := Nat.mod_eq_of_lt hi1
  have hlt : ring.data[i].1 < ring.data[i + 1].1 := by
    have := strictSorted_get_lt ring hs (Nat.lt_succ_self i) hi1
    simpa [List.get_eq_getElem] using this
  unfold containsAt
  rw [rangeAt_eq ring hcoh hi (by rw [hmod]; exact hi1)]
  simp only [List.get_eq_getElem, hmod, HashRingRange.contains]
  rw [if_neg (ne_of_lt hlt), if_pos hlt]

/-- On a strictly sorted, coherent ring with at least two slots, the final
cursor position's range membership is the wrap-around test. -/
theorem containsAt_last (ring : HashRing) (hs : ring.StrictSorted) (hcoh : ring.Coherent)
    {x : Nat} (hn : 2 ≤ ring.data.length) :
    containsAt ring (ring.data.length - 1) x =
      (decide (ring.data[ring.data.length - 1].1 ≤ x) || decide (x < ring.data[0].1)) := by
  have hi : ring.data.length - 1 < ring.data.length := by omega
  have hmod : (ring.data.length - 1 + 1) % ring.data.length = 0 := by
    have he : ring.data.length - 1 + 1 = ring.data.length := by omega
    rw [he, Nat.mod_self]
  have h0 : (0 : Nat) < ring.data.length := by omega
  have hgt : ring.data[0].1 < ring.data[ring.data.length - 1].1 := by
    have := strictSorted_get_lt ring hs (show 0 < ring.data.length - 1 by omega) hi
    simpa [List.get_eq_getElem] using this
  unfold containsAt
  rw [rangeAt_eq ring hcoh hi (by rw [hmod]; exact h0)]
  simp only [List.get_eq_getElem, hmod, HashRingRange.contains]
  rw [if_neg (ne_of_gt hgt), if_neg (not_lt_of_gt hgt)]

/-- On a strictly sorted coherent ring with at least two slots, the cursor
found by `HashRingCursor::new` for a key hash is a valid position whose
range contains the hash. -/
theorem cursor_new_containsAt (ring : HashRing) (hs : ring.StrictSorted)
    (hcoh : ring.Coherent) (hn : 2 ≤ ring.data.length) (x : Nat) :
    ∃ k, HashRingCursor.new ring x = some k ∧ k < ring.data.length ∧
      containsAt ring k x = true := by
  have hn0 : ¬ (ring.data.length = 0) := by omega
  have hip_le : (ring.data.takeWhile fun p => decide (p.1 < x)).length ≤ ring.data.length :=
    takeWhile_len_le _ _
  have hbelow : ∀ j, j < (ring.data.takeWhile fun p => decide (p.1 < x)).length →
      ∀ hj : j < ring.data.length, ring.data[j].1 < x := by
    intro j hj hjl
    have := takeWhile_get_true (fun p => decide (p.1 < x)) ring.data j hj hjl
    simpa [List.get_eq_getElem] using this
  have hstop :
      ∀ h : (ring.data.takeWhile fun p => decide (p.1 < x)).length < ring.data.length,
        ¬ ring.data[(ring.data.takeWhile fun p => decide (p.1 < x)).length].1 < x := by
    intro h
    have := takeWhile_get_false (fun p => decide (p.1 < x)) ring.data h
    simpa [List.get_eq_getElem] using this
  simp only [HashRingCursor.new]
  rw [if_neg hn0]
  by_cases hlt : (ring.data.takeWhile fun p => decide (p.1 < x)).length < ring.data.length
  · rw [List.get?_eq_get hlt]
    dsimp only
    by_cases heq : (ring.data.get
        ⟨(ring.data.takeWhile fun p => decide (p.1 < x)).length, hlt⟩).1 = x
    · rw [if_pos heq]
      have hx : ring.data[(ring.data.takeWhile fun p => decide (p.1 < x)).length].1 = x := by
        simpa [List.get_eq_getElem] using heq
      refine ⟨_, rfl, hlt, ?_⟩
      by_cases hend : (ring.data.takeWhile fun p => decide (p.1 < x)).length + 1 <
          ring.data.length
      · rw [containsAt_mid ring hs hcoh hend]
        have h2 : x < ring.data[(ring.data.takeWhile fun p => decide (p.1 < x)).length + 1].1 := by
          have h3 := strictSorted_get_lt ring hs
            (Nat.lt_succ_self (ring.data.takeWhile fun p => decide (p.1 < x)).length) hend
          simp only [List.get_eq_getElem, Nat.succ_eq_add_one] at h3
          rw [hx] at h3
          exact h3
        simp [hx, h2]
      · have htw : (ring.data.takeWhile fun p => decide (p.1 < x)).length =
            ring.data.length - 1 := by omega
        rw [htw]
        rw [containsAt_last ring hs hcoh hn]
        simp only [htw] at hx
        simp [hx.le]
    · rw [if_neg heq]
      have hxne : ring.data[(ring.data.takeWhile fun p => decide (p.1 < x)).length].1 ≠ x := by
        simpa [List.get_eq_getElem] using heq
      have hcur : x < ring.data[(ring.data.takeWhile fun p => decide (p.1 < x)).length].1 :=
        lt_of_le_of_ne (not_lt.mp (hstop hlt)) (Ne.symm hxne)
      by_cases h0 : (ring.data.takeWhile fun p => decide (p.1 < x)).length = 0
      · have hk : ((ring.data.takeWhile fun p => decide (p.1 < x)).length +
            ring.data.length - 1) % ring.data.length = ring.data.length - 1 := by
          have he : (ring.data.takeWhile fun p => decide (p.1 < x)).length +
              ring.data.length - 1 = ring.data.length - 1 := by omega
          rw [he, Nat.mod_eq_of_lt (by omega)]
        have hx0 : x < ring.data[0].1 := by
          simp only [h0] at hcur; exact hcur
        refine ⟨ring.data.length - 1, by rw [hk], by omega, ?_⟩
        rw [containsAt_last ring hs hcoh hn]
        simp [hx0]
      · have hk : ((ring.data.takeWhile fun p => decide (p.1 < x)).length +
            ring.data.length - 1) % ring.data.length =
            (ring.data.takeWhile fun p => decide (p.1 < x)).length - 1 := by
          have he : (ring.data.takeWhile fun p => decide (p.1 < x)).length +
              ring.data.length - 1 =
              ((ring.data.takeWhile fun p => decide (p.1 < x)).length - 1) +
                ring.data.length := by omega
          rw [he, Nat.add_mod_right, Nat.mod_eq_of_lt (by omega)]
        have hprev : ring.data[(ring.data.takeWhile fun p => decide (p.1 < x)).length - 1].1 <
            x := hbelow _ (by omega) (by omega)
        refine ⟨(ring.data.takeWhile fun p => decide (p.1 < x)).length - 1,
          by rw [hk], by omega, ?_⟩
        have hend : ((ring.data.takeWhile fun p => decide (p.1 < x)).length - 1) + 1 <
            ring.data.length := by omega
        rw [containsAt_mid ring hs hcoh hend]
        have he1 : ((ring.data.takeWhile fun p => decide (p.1 < x)).length - 1) + 1 =
            (ring.data.takeWhile fun p => decide (p.1 < x)).length := by omega
        simp only [he1]
        simp [hprev.le, hcur]
  · have hip : (ring.data.takeWhile fun p => decide (p.1 < x)).length = ring.data.length :=
      le_antisymm hip_le (not_lt.mp hlt)
    rw [List.get?_eq_none.mpr (by omega)]
    dsimp only
    have hk : ((ring.data.takeWhile fun p => decide (p.1 < x)).length +
        ring.data.length - 1) % ring.data.length = ring.data.length - 1 := by
      have he : (ring.data.takeWhile fun p => decide (p.1 < x)).length +
          ring.data.length - 1 = (ring.data.length - 1) + ring.data.length := by omega
      rw [he, Nat.add_mod_right, Nat.mod_eq_of_lt (by omega)]
    have hlast : ring.data[ring.data.length - 1].1 < x := hbelow _ (by omega) (by omega)
    refine ⟨ring.data.length - 1, by rw [hk], by omega, ?_⟩
    rw [containsAt_last ring hs hcoh hn]
    simp [hlast.le]

end Haze

namespace Haze

/-- Monotone-by-index for strictly sorted ring data, `getElem` form. -/
theorem strictSorted_getElem_le (ring : HashRing) (hs : ring.StrictSorted) {i j : Nat}
    (hij : i ≤ j) (hi : i < ring.data.length) (hj : j < ring.data.length) :
    ring.data[i].1 ≤ ring.data[j].1 := by
  have := strictSorted_get_le ring hs hij hj
  simpa [List.get_eq_getElem] using this

/-- Two distinct cursor positions' ranges never both contain a key hash. -/
theorem containsAt_disjoint (ring : HashRing) (hs : ring.StrictSorted)
    (hcoh : ring.Coherent) (hn : 2 ≤ ring.data.length) (x : Nat) {i j : Nat}
    (hij : i < j) (hj : j < ring.data.length)
    (ci : containsAt ring i x = true) (cj : containsAt ring j x = true) : False := by
  have hi1 : i + 1 < ring.data.length := by omega
  rw [containsAt_mid ring hs hcoh hi1] at ci
  simp only [Bool.and_eq_true, decide_eq_true_eq] at ci
  obtain ⟨cil, cir⟩ := ci
  by_cases hjl : j + 1 < ring.data.length
  · rw [containsAt_mid ring hs hcoh hjl] at cj
    simp only [Bool.and_eq_true, decide_eq_true_eq] at cj
    have hmono : ring.data[i + 1].1 ≤ ring.data[j].1 :=
      strictSorted_getElem_le ring hs (by omega) hi1 (by omega)
    omega
  · have hj' : j = ring.data.length - 1 := by omega
    subst hj'
    rw [containsAt_last ring hs hcoh hn] at cj
    simp only [Bool.or_eq_true, decide_eq_true_eq] at cj
    rcases cj with cj | cj
    · have hmono : ring.data[i + 1].1 ≤ ring.data[ring.data.length - 1].1 :=
        strictSorted_getElem_le ring hs (by omega) hi1 (by omega)
      omega
    · have hmono : ring.data[0].1 ≤ ring.data[i].1 :=
        strictSorted_getElem_le ring hs (by omega) (by omega) (by omega)
      omega

/-- A predicate true at exactly one point of `range n` has count one. -/
theorem countP_range_eq_one {p : Nat → Bool} :
    ∀ n k, k < n → p k = true → (∀ j, j < n → p j = true → j = k) →
      (List.range n).countP p = 1 := by
  intro n
  induction n with
  | zero => intro k hk; omega
  | succ m ih =>
    intro k hk hpk huniq
    rw [List.range_succ, List.countP_append]
    by_cases hkm : k = m
    · subst hkm
      have hz : (List.range k).countP p = 0 := by
        rw [List.countP_eq_zero]
        intro a ha hpa
        have h1 : a < k := List.mem_range.mp ha
        have := huniq a (by omega) hpa
        omega
      simp [hz, hpk]
    · have hpm : p m = false := by
        by_contra hpm
        have hpm' : p m = true := by simpa using hpm
        have := huniq m (by omega) hpm'
        omega
      have hcnt := ih k (by omega) hpk (fun j hj hpj => huniq j (by omega) hpj)
      simp [hcnt, hpm]

/-- **C8 (amended)** — on every hash ring with at least two virtual nodes
whose stored hashes are strictly sorted and coherent (as `from_nodes`
builds them, absent a SHA-256 collision among the configured names), the
range the ring computes for any key hash exists and contains that hash, and
exactly one of the `n` cursor positions' ranges contains any given hash —
the ranges partition the hash circle.  The claim's "every non-empty
HashRing" had to be restricted to rings with at least two virtual nodes: on
a singleton ring the single range is empty (`contains` is constantly false,
see the counterexample). -/
theorem C8_ranges_partition (ring : HashRing) (x : Nat)
    (hs : ring.StrictSorted) (hcoh : ring.Coherent) (hn : 2 ≤ ring.data.length) :
    ((ring.range x).map fun r => r.contains x) = some true ∧
    (List.range ring.data.length).countP (fun i => containsAt ring i x) = 1 := by
  obtain ⟨k, hnew, hk, hcont⟩ := cursor_new_containsAt ring hs hcoh hn x
  constructor
  · unfold HashRing.range
    rw [hnew]
    unfold containsAt at hcont
    revert hcont
    cases hr : HashRingCursor.rangeAt ring k with
    | none => intro h; cases h
    | some r =>
      intro h
      simp only [Option.bind_eq_bind, Option.some_bind, hr, Option.map_some]
      simpa using h
  · exact countP_range_eq_one ring.data.length k hk hcont
      (fun j hj hpj => by
        rcases lt_trichotomy j k with h | h | h
        · exact (containsAt_disjoint ring hs hcoh hn x h hk hpj hcont).elim
        · exact h
        · exact (containsAt_disjoint ring hs hcoh hn x h hj hcont hpj).elim)

/-- **C8 (counterexample)** — on the non-empty ring with a single virtual
node, the range of that very node does not contain it (the range's two
endpoint hashes coincide and `contains` is false), and no cursor position's
range contains its hash — refuting the claim's "for every non-empty
HashRing". -/
theorem C8_singleton_contains_nothing :
    ((HashRing.from_nodes [⟨"a"⟩]).range (VirtualNodeId.as_sha256 ⟨"a"⟩)).map
        (fun r => r.contains (VirtualNodeId.as_sha256 ⟨"a"⟩)) = some false ∧
    (List.range (HashRing.from_nodes [⟨"a"⟩]).data.length).countP
        (fun i => containsAt (HashRing.from_nodes [⟨"a"⟩]) i
          (VirtualNodeId.as_sha256 ⟨"a"⟩)) = 0 := by
  exact ⟨by decide, by decide⟩

/-- Witness for C8's amended theorem on the concrete two-node ring built
from virtual nodes `"a"` and `"b"`, at the hash of the composite key
`("s","k")`. -/
theorem C8_witness :
    (HashRing.from_nodes [⟨"a"⟩, ⟨"b"⟩]).StrictSorted ∧
    (HashRing.from_nodes [⟨"a"⟩, ⟨"b"⟩]).Coherent ∧
    2 ≤ (HashRing.from_nodes [⟨"a"⟩, ⟨"b"⟩]).data.length ∧
    ((((HashRing.from_nodes [⟨"a"⟩, ⟨"b"⟩]).range
          (CompositeKey.as_sha256 ⟨"s", "k"⟩)).map
        fun r => r.contains (CompositeKey.as_sha256 ⟨"s", "k"⟩)) = some true ∧
      (List.range (HashRing.from_nodes [⟨"a"⟩, ⟨"b"⟩]).data.length).countP
        (fun i => containsAt (HashRing.from_nodes [⟨"a"⟩, ⟨"b"⟩]) i
          (CompositeKey.as_sha256 ⟨"s", "k"⟩)) = 1) :=
  ⟨by decide, by decide, by decide,
    C8_ranges_partition (HashRing.from_nodes [⟨"a"⟩, ⟨"b"⟩])
      (CompositeKey.as_sha256 ⟨"s", "k"⟩) (by decide) (by decide) (by decide)⟩

end Haze

namespace Haze

/-- A key is never a member of the map it was erased from. -/
theorem finmap_not_mem_erase_self {α : Type} {β : α → Type} [DecidableEq α]
    (a : α) (s : Finmap β) : a ∉ Finmap.erase a s :=
  fun h => (Finmap.mem_erase.mp h).1 rfl

/-- Erasing an absent key is the identity. -/
theorem finmap_erase_of_not_mem {α : Type} {β : α → Type} [DecidableEq α]
    {a : α} {s : Finmap β} (h : a ∉ s) : Finmap.erase a s = s := by
  apply Finmap.ext_lookup
  intro y
  by_cases hy : y = a
  · subst hy
    rw [Finmap.lookup_erase, Finmap.lookup_eq_none.mpr h]
  · rw [Finmap.lookup_erase_ne hy]

/-- Erasing a freshly inserted (previously absent) key is the identity. -/
theorem finmap_erase_insert {α : Type} {β : α → Type} [DecidableEq α]
    {a : α} {b : β a} {s : Finmap β} (h : a ∉ s) :
    Finmap.erase a (Finmap.insert a b s) = s := by
  apply Finmap.ext_lookup
  intro y
  by_cases hy : y = a
  · subst hy
    rw [Finmap.lookup_erase, Finmap.lookup_eq_none.mpr h]
  · rw [Finmap.lookup_erase_ne hy, Finmap.lookup_insert_of_ne _ hy]

/-- Inserting over an erased key is inserting over the original map. -/
theorem finmap_insert_erase {α : Type} {β : α → Type} [DecidableEq α]
    {a : α} {b : β a} {s : Finmap β} :
    Finmap.insert a b (Finmap.erase a s) = Finmap.insert a b s := by
  apply Finmap.ext_lookup
  intro y
  by_cases hy : y = a
  · subst hy
    rw [Finmap.lookup_insert, Finmap.lookup_insert]
  · rw [Finmap.lookup_insert_of_ne _ hy, Finmap.lookup_insert_of_ne _ hy,
      Finmap.lookup_erase_ne hy]

/-- In a list of at most one element, any member is the head. -/
theorem head?_of_mem_len_le_one {α : Type} {l : List α} {a : α}
    (h1 : l.length ≤ 1) (h2 : a ∈ l) : l.head? = some a := by
  cases l with
  | nil => cases h2
  | cons b t =>
    cases t with
    | nil =>
      simp only [List.mem_singleton] at h2
      simp [h2]
    | cons c u => simp at h1

/-- The claim's cluster-consistency condition, in the amended form the code
satisfies: at least one configured peer; at most one update descriptor
across all configured peers (even two identical descriptors are rejected);
and the configured nodes-maps all drawn from the before/after pair of the
descriptor — for `ToAdd{vn,ni}` and `ToRemove{vn,ni}` alike, some map `M`
without `vn` such that every peer's map is `M` or `M` with `vn ↦ ni` (both
camps need not be inhabited); with no descriptor, all nodes-maps equal. -/
def ClusterConsistent (known : List (NetworkId × ActualConfig)) : Prop :=
  ClusterConfig.configsOf known ≠ [] ∧
  (ClusterConfig.updatesOf known).length ≤ 1 ∧
  match (ClusterConfig.updatesOf known).head? with
  | none => ∃ N, ∀ c ∈ ClusterConfig.configsOf known, c.ring.nodes = N
  | some (.ToAdd vn ni) =>
    ∃ M, vn ∉ M ∧ ∀ c ∈ ClusterConfig.configsOf known,
      c.ring.nodes = M ∨ c.ring.nodes = Finmap.insert vn ni M
  | some (.ToRemove vn ni) =>
    ∃ M, vn ∉ M ∧ ∀ c ∈ ClusterConfig.configsOf known,
      c.ring.nodes = M ∨ c.ring.nodes = Finmap.insert vn ni M

/-- **C6 (counterexample)** — the claim's branch (a) accepts any cluster in
which every configured peer reports the identical `(nodes, update)` pair;
but when that shared `update` is a `Some`, the code rejects the cluster
("multiple active updates"): two peers reporting the same in-flight
descriptor count as two descriptors. -/
theorem C6_identical_updates_rejected :
    ClusterConfig.parse
      [(⟨"n1"⟩, .Configured ⟨Finmap.insert ⟨"v"⟩ ⟨"n1"⟩ ∅, some (.ToAdd ⟨"w"⟩ ⟨"n2"⟩)⟩),
       (⟨"n2"⟩, .Configured ⟨Finmap.insert ⟨"v"⟩ ⟨"n1"⟩ ∅, some (.ToAdd ⟨"w"⟩ ⟨"n2"⟩)⟩)] =
      .error "cluster has multiple active updates" := by
  rfl

end Haze

namespace Haze

/-- **C6 (amended)** — `ClusterConfig::parse` over a map of configured
peers succeeds iff the cluster is consistent in the amended sense: at least
one configured peer, at most one update descriptor cluster-wide (so
identical `(nodes, Some u)` pairs on two peers are rejected, unlike the
claim's branch (a)), and every configured nodes-map drawn from the
before/after pair of the single in-flight update (both camps need not be
inhabited, unlike the claim's "divide into exactly the two"); with no
update, all nodes-maps identical.  Every other pattern is rejected without
performing any action. -/
theorem C6_parse_iff_consistent (known : List (NetworkId × ActualConfig)) :
    (ClusterConfig.parse known).isOk = true ↔ ClusterConsistent known := by
  constructor
  · intro hok
    simp only [ClusterConfig.parse] at hok
    rcases hup : ClusterConfig.updatesOf known with _ | ⟨u, _ | ⟨u2, t2⟩⟩
    · rw [hup] at hok
      dsimp only at hok
      rcases hcfg : (ClusterConfig.configsOf known).head? with _ | ⟨first⟩
      · rw [hcfg] at hok
        simp [Except.isOk, Except.toBool] at hok
      · rw [hcfg] at hok
        dsimp only at hok
        split at hok
        case isTrue hcond =>
          have hall := List.all_eq_true.mp hcond
          unfold ClusterConsistent
          rw [hup]
          refine ⟨?_, ?_, ?_⟩
          · intro h
            rw [h] at hcfg
            cases hcfg
          · simp
          · dsimp only
            refine ⟨first.ring.nodes, fun c hc => ?_⟩
            have hthis := hall c hc
            simp only [Bool.and_eq_true, Bool.or_eq_true, decide_eq_true_eq] at hthis
            rcases hthis.1 with h | h <;> exact h
        case isFalse => simp [Except.isOk, Except.toBool] at hok
    · rw [hup] at hok
      dsimp only at hok
      rcases hcfg : (ClusterConfig.configsOf known).head? with _ | ⟨first⟩
      · rw [hcfg] at hok
        simp [Except.isOk, Except.toBool] at hok
      · rw [hcfg] at hok
        unfold ClusterConsistent
        rw [hup]
        cases u with
        | ToAdd vn ni =>
          dsimp only at hok
          split at hok
          case isFalse => simp [Except.isOk, Except.toBool] at hok
          case isTrue hcond =>
            have hall := List.all_eq_true.mp hcond
            refine ⟨?_, ?_, ?_⟩
            · intro h
              rw [h] at hcfg
              cases hcfg
            · simp
            · dsimp only
              refine ⟨Finmap.erase vn first.ring.nodes,
                finmap_not_mem_erase_self vn _, fun c hc => ?_⟩
              have hthis := hall c hc
              simp only [Bool.and_eq_true, Bool.or_eq_true, decide_eq_true_eq] at hthis
              rcases hthis.1 with h | h
              · right
                rw [finmap_insert_erase]
                exact h
              · left; exact h
        | ToRemove vn ni =>
          dsimp only at hok
          split at hok
          case isFalse => simp [Except.isOk, Except.toBool] at hok
          case isTrue hcond =>
            have hall := List.all_eq_true.mp hcond
            refine ⟨?_, ?_, ?_⟩
            · intro h
              rw [h] at hcfg
              cases hcfg
            · simp
            · dsimp only
              refine ⟨Finmap.erase vn first.ring.nodes,
                finmap_not_mem_erase_self vn _, fun c hc => ?_⟩
              have hthis := hall c hc
              simp only [Bool.and_eq_true, Bool.or_eq_true, decide_eq_true_eq] at hthis
              rcases hthis.1 with h | h
              · left; exact h
              · right
                rw [finmap_insert_erase]
                exact h
    · rw [hup] at hok
      simp [Except.isOk, Except.toBool] at hok
  · intro hcon
    obtain ⟨hne, hlen, hcamp⟩ := hcon
    have hhead : (ClusterConfig.configsOf known).head? =
        some ((ClusterConfig.configsOf known).head hne) := List.head?_eq_head hne
    have hfmem : (ClusterConfig.configsOf known).head hne ∈ ClusterConfig.configsOf known :=
      List.head_mem hne
    simp only [ClusterConfig.parse]
    rcases hup : ClusterConfig.updatesOf known with _ | ⟨u, _ | ⟨u2, t2⟩⟩
    · rw [hup] at hcamp
      try dsimp only at hcamp
      obtain ⟨N, hN⟩ := hcamp
      have hnone : ∀ c ∈ ClusterConfig.configsOf known, c.ring.update = none := by
        intro c hc
        cases hcu : c.ring.update with
        | none => rfl
        | some w =>
          exfalso
          have hmem : w ∈ ClusterConfig.updatesOf known :=
            List.mem_filterMap.mpr ⟨c, hc, hcu⟩
          rw [hup] at hmem
          cases hmem
      rw [hhead]
      simp only [List.head?_nil]
      have hcheck : (ClusterConfig.configsOf known).all (fun cc =>
          (decide (cc.ring.nodes = ((ClusterConfig.configsOf known).head hne).ring.nodes) ||
            decide (cc.ring.nodes = ((ClusterConfig.configsOf known).head hne).ring.nodes)) &&
          (decide (cc.ring.update = none) || decide (cc.ring.update = none))) = true := by
        rw [List.all_eq_true]
        intro c hc
        simp only [Bool.and_eq_true, Bool.or_eq_true, decide_eq_true_eq]
        exact ⟨Or.inl (by rw [hN c hc, hN _ hfmem]), Or.inl (hnone c hc)⟩
      rw [if_pos hcheck]
      rfl
    · rw [hup] at hcamp
      try dsimp only at hcamp
      have hupd1 : ∀ c ∈ ClusterConfig.configsOf known,
          c.ring.update = none ∨ c.ring.update = some u := by
        intro c hc
        cases hcu : c.ring.update with
        | none => exact Or.inl rfl
        | some w =>
          right
          have hmem : w ∈ ClusterConfig.updatesOf known :=
            List.mem_filterMap.mpr ⟨c, hc, hcu⟩
          rw [hup] at hmem
          simp only [List.mem_singleton] at hmem
          rw [hmem]
      rw [hhead]
      cases u with
      | ToAdd vn ni =>
        simp only [List.head?_cons] at hcamp ⊢
        obtain ⟨M, hM, hMall⟩ := hcamp
        have hWU : Finmap.insert vn ni ((ClusterConfig.configsOf known).head hne).ring.nodes =
            Finmap.insert vn ni M := by
          rcases hMall _ hfmem with hf | hf
          · rw [hf]
          · rw [hf, Finmap.insert_insert]
        have hWO : Finmap.erase vn ((ClusterConfig.configsOf known).head hne).ring.nodes =
            M := by
          rcases hMall _ hfmem with hf | hf
          · rw [hf, finmap_erase_of_not_mem hM]
          · rw [hf, finmap_erase_insert hM]
        have hcheck : (ClusterConfig.configsOf known).all (fun cc =>
            (decide (cc.ring.nodes =
                Finmap.insert vn ni ((ClusterConfig.configsOf known).head hne).ring.nodes) ||
              decide (cc.ring.nodes =
                Finmap.erase vn ((ClusterConfig.configsOf known).head hne).ring.nodes)) &&
            (decide (cc.ring.update = none) ||
              decide (cc.ring.update = some (RingUpdateConfig.ToAdd vn ni)))) = true := by
          rw [List.all_eq_true]
          intro c hc
          simp only [Bool.and_eq_true, Bool.or_eq_true, decide_eq_true_eq]
          refine ⟨?_, hupd1 c hc⟩
          rcases hMall c hc with h | h
          · right; rw [h, hWO]
          · left; rw [h, hWU]
        rw [if_pos hcheck]
        rfl
      | ToRemove vn ni =>
        simp only [List.head?_cons] at hcamp ⊢
        obtain ⟨M, hM, hMall⟩ := hcamp
        have hWU : Finmap.erase vn ((ClusterConfig.configsOf known).head hne).ring.nodes =
            M := by
          rcases hMall _ hfmem with hf | hf
          · rw [hf, finmap_erase_of_not_mem hM]
          · rw [hf, finmap_erase_insert hM]
        have hWO : Finmap.insert vn ni ((ClusterConfig.configsOf known).head hne).ring.nodes =
            Finmap.insert vn ni M := by
          rcases hMall _ hfmem with hf | hf
          · rw [hf]
          · rw [hf, Finmap.insert_insert]
        have hcheck : (ClusterConfig.configsOf known).all (fun cc =>
            (decide (cc.ring.nodes =
                Finmap.erase vn ((ClusterConfig.configsOf known).head hne).ring.nodes) ||
              decide (cc.ring.nodes =
                Finmap.insert vn ni ((ClusterConfig.configsOf known).head hne).ring.nodes)) &&
            (decide (cc.ring.update = none) ||
              decide (cc.ring.update = some (RingUpdateConfig.ToRemove vn ni)))) = true := by
          rw [List.all_eq_true]
          intro c hc
          simp only [Bool.and_eq_true, Bool.or_eq_true, decide_eq_true_eq]
          refine ⟨?_, hupd1 c hc⟩
          rcases hMall c hc with h | h
          · left; rw [h, hWU]
          · right; rw [h, hWO]
        rw [if_pos hcheck]
        rfl
    · rw [hup] at hlen
      simp at hlen

end Haze
